import Mathlib

/-! Text_display: line layout, scrolling and coordinate mapping.

A shallow embedding of `src/src/widget_module/text_display.cpp` (class `Text_display`), and of
the class `Focus` declared in `src/include/cppurses/system/focus.hpp`.

Conventions of the embedding.

* `std::size_t` is 64 bits wide.  Values that a caller can choose freely (scroll amounts, screen
  coordinates) and every expression over them are reduced modulo `2 ^ 64`.  Counters that are
  bounded by the number of glyphs of the buffer (`i`, `start_index`, `length`, `last_space` inside
  `update_display`) are natural numbers; `update_display_scan_bounds` shows that the only
  subtraction of the loop (`i -= length - last_space`) never goes below zero.
* `std::vector::at` and `Glyph_string::at` throw on an index out of range: a function that can
  reach such a call without a guard returns an `Option`, `none` standing for the exception (or,
  for iterator arithmetic past the end of the buffer, for undefined behaviour).
* The `for` loop of `update_display` moves its index backwards, so it is iterated with a fuel
  budget; `update_display_lines` uses `contents.length * width` iterations and
  `update_display_lines_spec` shows the budget is never exhausted.
-/

set_option autoImplicit false

namespace twf

/-- Number of values of `std::size_t`. -/
def SIZE_MOD : Nat := 2 ^ 64

/-- The sentinel `Glyph_string::npos`, the largest `std::size_t`. -/
def npos : Nat := 2 ^ 64 - 1

/-- Modelled from the spec: the `Glyph` class (its header lies outside the files embedded here):
"a glyph is an atomic display unit, e.g. one code point plus style attributes".  `symbol` is
what `str()` returns, `brush` stands for the style attributes; equality compares both. -/
structure Glyph where
  symbol : Char
  brush : Nat
deriving DecidableEq, Repr

/-- The accessor `Glyph::str()`. -/
def Glyph.str (g : Glyph) : Char := g.symbol

/-- The implicit conversion from a character literal to a `Glyph` (no style attributes), used
by the comparison `contents_.at(i) == " "`. -/
def Glyph.of_char (c : Char) : Glyph := { symbol := c, brush := 0 }

/-- A `Glyph_string` is a sequence of glyphs. -/
abbrev Glyph_string := List Glyph

/-- A `Glyph_string` built from plain text. -/
def Glyph_string.of_string (s : String) : Glyph_string := s.toList.map Glyph.of_char

/-- The record `line_info` of one displayed line. -/
structure line_info where
  start_index : Nat
  length : Nat
deriving DecidableEq, Repr

/-- Modelled from the spec: `Coordinate` (declared in `widget_module/coordinate.hpp`, outside the
files embedded here): a screen cell, column `x` and row `y`, both `std::size_t`. -/
structure Coordinate where
  x : Nat
  y : Nat
deriving DecidableEq, Repr

/-- The state of a `Text_display`: its own members, and the members of the `Widget` base class
that the code reads (`width()`, `height()`, `cursor_y()`). -/
structure Text_display where
  contents_ : Glyph_string
  display_state_ : List line_info
  top_line_ : Nat
  word_wrap_ : Bool
  width : Nat
  height : Nat
  cursor_y : Nat
deriving DecidableEq, Repr

/-- The local variables of the loop of `update_display`, and the line table under
construction. -/
structure scan_state where
  i : Nat
  start_index : Nat
  length : Nat
  last_space : Nat
  display_state : List line_info
deriving DecidableEq, Repr

/-- One iteration of the `for` loop of `update_display` at glyph `g = contents_.at(i)`, the
increment `++i` of the loop header included. -/
def update_display_step (width : Nat) (word_wrap : Bool) (g : Glyph) (s : scan_state) :
    scan_state :=
  let length := s.length + 1
  let last_space := if word_wrap = true ∧ g.str = ' ' then length else s.last_space
  if g.str = '\n' then
    { i := s.i + 1
      start_index := s.start_index + length
      length := 0
      last_space := last_space
      display_state := s.display_state ++ [{ start_index := s.start_index, length := length }] }
  else if length = width then
    if g = Glyph.of_char ' ' then
      { i := s.i + 1
        start_index := s.start_index + length
        length := 0
        last_space := last_space
        display_state := s.display_state ++ [{ start_index := s.start_index, length := length }] }
    else if word_wrap = true ∧ last_space > 0 then
      { i := s.i - (length - last_space) + 1
        start_index := s.start_index + last_space
        length := 0
        last_space := 0
        display_state :=
          s.display_state ++ [{ start_index := s.start_index, length := last_space }] }
    else
      { i := s.i + 1
        start_index := s.start_index + length
        length := 0
        last_space := last_space
        display_state := s.display_state ++ [{ start_index := s.start_index, length := length }] }
  else
    { i := s.i + 1
      start_index := s.start_index
      length := length
      last_space := last_space
      display_state := s.display_state }

/-- The `for` loop of `update_display`: while `i < contents_.size()` run the body.  `none` when
the fuel runs out before the loop condition fails. -/
def update_display_loop (contents : Glyph_string) (width : Nat) (word_wrap : Bool) :
    Nat → scan_state → Option scan_state
  | 0, s => if s.i < contents.length then none else some s
  | fuel + 1, s =>
    if h : s.i < contents.length then
      update_display_loop contents width word_wrap fuel
        (update_display_step width word_wrap (contents.get ⟨s.i, h⟩) s)
    else some s

/-- The values of the locals before the loop of `update_display`. -/
def scan_init : scan_state :=
  { i := 0, start_index := 0, length := 0, last_space := 0, display_state := [] }

/-- The line table that `update_display` builds for a non-zero width: the loop, then
the trailing line when `length != 0`. -/
def update_display_lines (contents : Glyph_string) (width : Nat) (word_wrap : Bool) :
    Option (List line_info) :=
  match update_display_loop contents width word_wrap (contents.length * width) scan_init with
  | none => none
  | some s =>
    if s.length ≠ 0 then
      some (s.display_state ++ [{ start_index := s.start_index, length := s.length }])
    else some s.display_state


/-- The accessor `last_line()`. -/
def last_line (td : Text_display) : Nat :=
  if td.display_state_ = [] then 0 else td.display_state_.length - 1

/-- The accessor `last_index()`. -/
def last_index (td : Text_display) : Nat :=
  if td.contents_ = [] then 0 else td.contents_.length - 1

/-- Modelled from the spec: `glyph_at(index)` (defined in the class header, outside the files
embedded here): the glyph of the buffer at `index`, `contents_.at(index)`; `none` when it throws. -/
def glyph_at (td : Text_display) (index : Nat) : Option Glyph :=
  td.contents_[index]?

/-- The query `row_length(y)`.  The call `display_state_.at(line)` is in range by the clamp that
precedes it. -/
def row_length (td : Text_display) (y : Nat) : Nat :=
  if td.display_state_ = [] then 0
  else
    let line := (td.top_line_ + y) % SIZE_MOD
    let line := if line ≥ td.display_state_.length then td.display_state_.length - 1 else line
    (td.display_state_.getD line { start_index := 0, length := 0 }).length

/-- The method `update_display(from_line)`; the argument `from_line` is never read by the body.
`none` when the loop runs out of fuel or `glyph_at` throws (`update_display_total`: neither
happens). -/
def update_display (td : Text_display) : Option Text_display :=
  if td.width = 0 then some { td with display_state_ := [] }
  else
    match update_display_lines td.contents_ td.width td.word_wrap_ with
    | none => none
    | some lines =>
      let td1 := { td with display_state_ := lines }
      if lines = [] then some td1
      else
        let last_x := row_length td1 (last_line td1)
        match glyph_at td1 (last_index td1) with
        | none => none
        | some last_char =>
          if last_x = td1.width ∨ last_char.str = '\n' then some td1
          else if td1.top_line_ ≥ lines.length then
            let td2 := if lines = [] then { td1 with top_line_ := 0 } else td1
            some { td2 with top_line_ := lines.length - 1 }
          else some td1

/-- The constructor `Text_display(content)`: `top_line_` starts at 0 and the table is built
once.  The geometry and the word-wrap flag come from the members' initial values, set in the
class header, so they are arguments. -/
def Text_display.construct (content : Glyph_string) (word_wrap : Bool)
    (width height cursor_y : Nat) : Option Text_display :=
  update_display
    { contents_ := content, display_state_ := [], top_line_ := 0, word_wrap_ := word_wrap,
      width := width, height := height, cursor_y := cursor_y }

/-- The method `set_text(string)`. -/
def set_text (td : Text_display) (string : Glyph_string) : Option Text_display :=
  update_display { td with contents_ := string }

/-- The method `insert(string, index)`.  `none` when `index` lies past the end of the buffer
(the iterator `begin + index` is then invalid). -/
def insert (td : Text_display) (string : Glyph_string) (index : Nat) : Option Text_display :=
  let contents := if td.contents_ = [] then td.contents_ ++ string else td.contents_
  if index ≤ contents.length then
    update_display { td with contents_ := contents.take index ++ string ++ contents.drop index }
  else none

/-- The method `append(string)`. -/
def append (td : Text_display) (string : Glyph_string) : Option Text_display :=
  update_display { td with contents_ := td.contents_ ++ string }

/-- The method `erase(index, length)`.  `none` when the range runs past the end of the buffer and
`length` is not `npos` (the iterator `begin + length + index` is then invalid). -/
def erase (td : Text_display) (index length : Nat) : Option Text_display :=
  if td.contents_ = [] ∨ index ≥ td.contents_.length then some td
  else if length = npos then update_display { td with contents_ := td.contents_.take index }
  else if index + length ≤ td.contents_.length then
    update_display
      { td with contents_ := td.contents_.take index ++ td.contents_.drop (index + length) }
  else none

/-- The method `pop_back()`. -/
def pop_back (td : Text_display) : Option Text_display :=
  if td.contents_ = [] then some td
  else update_display { td with contents_ := td.contents_.dropLast }

/-- The method `clear()`. -/
def clear (td : Text_display) : Option Text_display :=
  update_display { td with contents_ := [] }

/-- The method `scroll_up(n)`. -/
def scroll_up (td : Text_display) (n : Nat) : Text_display :=
  if n > td.top_line_ then { td with top_line_ := 0 }
  else { td with top_line_ := td.top_line_ - n }

/-- The method `scroll_down(n)`; the sum `top_line() + n` is a `std::size_t`. -/
def scroll_down (td : Text_display) (n : Nat) : Text_display :=
  if (td.top_line_ + n) % SIZE_MOD > last_line td then { td with top_line_ := last_line td }
  else { td with top_line_ := (td.top_line_ + n) % SIZE_MOD }

/-- The handler `resize_event(event)`: the base class stores the new geometry, then the table is
rebuilt. -/
def resize_event (td : Text_display) (new_width new_height : Nat) : Option Text_display :=
  update_display { td with width := new_width, height := new_height }

/-- The query `line_at(index)`; `std::find_if` gives the end of the table when no line
matches. -/
def line_at (td : Text_display) (index : Nat) : Nat :=
  if index ≥ td.contents_.length then
    if td.display_state_ = [] then 0 else td.display_state_.length - 1
  else
    td.display_state_.findIdx fun info => decide (info.start_index + info.length > index)

/-- The query `number_of_rows()`. -/
def number_of_rows (td : Text_display) : Nat :=
  if last_line td = 0 ∨ td.top_line_ > last_line td then 1
  else
    let visible_rows := 1 + last_line td - td.top_line_
    if visible_rows ≥ td.height then td.height else visible_rows

/-- The query `index_at(line)`; `none` when `display_state_.at(line)` throws. -/
def index_at (td : Text_display) (line : Nat) : Option Nat :=
  if td.display_state_ = [] then some 0
  else if line ≥ td.display_state_.length ∧ line ≠ 0 then some npos
  else td.display_state_[line]?.map fun info => info.start_index

/-- The query `line_length(line)`. -/
def line_length (td : Text_display) (line : Nat) : Nat :=
  if td.display_state_ = [] then 0
  else
    let line := if line ≥ td.display_state_.length then td.display_state_.length - 1 else line
    (td.display_state_.getD line { start_index := 0, length := 0 }).length

/-- The query `string_index(x, y)`.  The call `display_state_.at(line)` is in range by the test
that precedes it. -/
def string_index (td : Text_display) (x y : Nat) : Nat :=
  if td.display_state_ = [] then 0
  else
    let line := (td.top_line_ + y) % SIZE_MOD
    if line ≥ td.display_state_.length then npos
    else
      let info := td.display_state_.getD line { start_index := 0, length := 0 }
      if info.length = 0 then info.start_index
      else if x ≥ info.length then
        if line = td.display_state_.length - 1 then npos
        else (info.start_index + (info.length - 1)) % SIZE_MOD
      else (info.start_index + x) % SIZE_MOD

/-- The query `display_position(index)`; the differences are `std::size_t` differences.  `none`
when `glyph_at` or `display_state_.at(line)` throws. -/
def display_position (td : Text_display) (index : Nat) : Option Coordinate :=
  if td.display_state_ = [] then some { x := 0, y := 0 }
  else if index ≥ td.contents_.length then
    let last_x := row_length td (last_line td)
    match glyph_at td (last_index td) with
    | none => none
    | some last_char =>
      if last_char.str = '\n' ∨ last_x = td.width then
        if td.cursor_y = 0 ∧ last_x = td.width then some { x := 0, y := 0 }
        else if td.cursor_y = 0 then
          some { x := 0, y := (number_of_rows td + SIZE_MOD - 1) % SIZE_MOD }
        else some { x := 0, y := number_of_rows td }
      else some { x := last_x, y := (number_of_rows td + SIZE_MOD - 1) % SIZE_MOD }
  else
    let line := line_at td index
    match td.display_state_[line]? with
    | none => none
    | some info =>
      some { x := (index + SIZE_MOD - info.start_index) % SIZE_MOD
             y := (line + SIZE_MOD - td.top_line_) % SIZE_MOD }

/-! ## Predicates used by the statements -/

/-- The bounds that hold of the loop variables at the loop head. -/
def scan_ok (contents : Glyph_string) (width : Nat) (s : scan_state) : Prop :=
  s.i = s.start_index + s.length ∧ s.length < width ∧ s.last_space ≤ width ∧
    s.i ≤ contents.length

/-- The lines of a table follow one another from offset `a` to offset `b`. -/
def contiguous : List line_info → Nat → Nat → Prop
  | [], a, b => a = b
  | l :: ls, a, b => l.start_index = a ∧ contiguous ls (a + l.length) b

/-- The glyphs of `contents` that a line spans. -/
def line_span (contents : Glyph_string) (l : line_info) : Glyph_string :=
  (contents.drop l.start_index).take l.length

/-- The buffer holds a line-break glyph at offset `j`. -/
def is_break (contents : Glyph_string) (j : Nat) : Prop :=
  ∃ g, contents[j]? = some g ∧ g.str = '\n'

/-- The buffer holds a space glyph at offset `j`. -/
def is_space (contents : Glyph_string) (j : Nat) : Prop :=
  ∃ g, contents[j]? = some g ∧ g.str = ' '

/-- The line table of `td` is the one `update_display` builds from its buffer, width and
word-wrap flag. -/
def laid_out (td : Text_display) : Prop :=
  update_display_lines td.contents_ td.width td.word_wrap_ = some td.display_state_

/-- A display of width 5 with word wrap, not yet laid out, holding "a b", a line break and
"cdefghij". -/
def sample_display : Text_display :=
  { contents_ := Glyph_string.of_string "a b\ncdefghij", display_state_ := [], top_line_ := 0,
    word_wrap_ := true, width := 5, height := 3, cursor_y := 0 }

/-- The sample display after its rebuild, scrolled down to its third line. -/
def sample_scrolled : Text_display :=
  { sample_display with display_state_ := [⟨0, 4⟩, ⟨4, 2⟩, ⟨6, 5⟩, ⟨11, 1⟩], top_line_ := 2 }

/-- The table that breaks `n` glyphs every `w` glyphs: `ceil(n / w)` lines, line `k` starting
at `k * w` and holding `min w (n - k * w)` glyphs. -/
def hard_break_table (n w : Nat) : List line_info :=
  (List.range ((n + w - 1) / w)).map fun k =>
    { start_index := k * w, length := min w (n - k * w) }

/-- A display of width 4 without word wrap, not yet laid out, holding "ab cdefghi". -/
def sample_no_wrap : Text_display :=
  { contents_ := Glyph_string.of_string "ab cdefghi", display_state_ := [], top_line_ := 0,
    word_wrap_ := false, width := 4, height := 3, cursor_y := 0 }

/-- A display of width 1 holding "abcdefghijk", laid out: eleven lines of one glyph. -/
def sample_tall : Text_display :=
  { contents_ := Glyph_string.of_string "abcdefghijk"
    display_state_ := (List.range 11).map fun k => { start_index := k, length := 1 }
    top_line_ := 0, word_wrap_ := false, width := 1, height := 3, cursor_y := 0 }

/-- A display whose buffer and line table are empty. -/
def sample_empty : Text_display :=
  { contents_ := [], display_state_ := [], top_line_ := 0, word_wrap_ := true, width := 5,
    height := 3, cursor_y := 0 }

/-- An upper bound of `Glyph_string::max_size()`: a buffer of glyphs, each several bytes wide,
cannot hold `2 ^ 63` of them in a 64-bit address space. -/
def MAX_SIZE : Nat := 2 ^ 63 - 1

/-- The calls that change a `Text_display`. -/
inductive Op where
  | set_text (string : Glyph_string)
  | insert (string : Glyph_string) (index : Nat)
  | append (string : Glyph_string)
  | erase (index length : Nat)
  | pop_back
  | clear
  | scroll_up (n : Nat)
  | scroll_down (n : Nat)
  | resize (width height : Nat)

/-- The state after a call; `none` when the call fails. -/
def Op.run (td : Text_display) : Op → Option Text_display
  | Op.set_text string => twf.set_text td string
  | Op.insert string index => twf.insert td string index
  | Op.append string => twf.append td string
  | Op.erase index length => twf.erase td index length
  | Op.pop_back => twf.pop_back td
  | Op.clear => twf.clear td
  | Op.scroll_up n => some (twf.scroll_up td n)
  | Op.scroll_down n => some (twf.scroll_down td n)
  | Op.resize width height => resize_event td width height

/-- The states reached from a freshly constructed `Text_display` by a sequence of calls, the
buffer staying within `MAX_SIZE`. -/
inductive Reachable : Text_display → Prop where
  | construct (content : Glyph_string) (word_wrap : Bool) (width height cursor_y : Nat)
      (td : Text_display) (hsize : content.length ≤ MAX_SIZE)
      (h : Text_display.construct content word_wrap width height cursor_y = some td) :
      Reachable td
  | step (td td1 : Text_display) (op : Op) (hr : Reachable td) (h : Op.run td op = some td1)
      (hsize : td1.contents_.length ≤ MAX_SIZE) : Reachable td1

/-- The condition under which `update_display` accepts the table without looking at the scroll
offset: the last line fills the width, or the last glyph of the buffer is a line break. -/
def last_line_full (td : Text_display) : Prop :=
  (∃ l, td.display_state_.getLast? = some l ∧ l.length = td.width) ∨
    (∃ g, td.contents_.getLast? = some g ∧ g.str = '\n')

/-- The invariant of the reachable states: the sizes stay within `MAX_SIZE`, the table has at
most one line per glyph, and the scroll offset is inside the table unless the table is empty or
was accepted by `update_display` without a look at the offset. -/
def scroll_inv (td : Text_display) : Prop :=
  td.contents_.length ≤ MAX_SIZE ∧ td.top_line_ ≤ MAX_SIZE ∧
    td.display_state_.length ≤ td.contents_.length ∧
    (td.display_state_ = [] ∨ last_line_full td ∨ td.top_line_ < td.display_state_.length)

/-- The display built from "a", "b", "c" separated by line breaks, at width 5. -/
def sample_three_lines : Text_display :=
  { contents_ := Glyph_string.of_string "a\nb\nc", display_state_ := [⟨0, 2⟩, ⟨2, 2⟩, ⟨4, 1⟩],
    top_line_ := 0, word_wrap_ := true, width := 5, height := 3, cursor_y := 0 }

/-- The display `sample_three_lines` scrolled to its last line and then given the text
"abcde", one line that fills the width. -/
def sample_overscrolled : Text_display :=
  { contents_ := Glyph_string.of_string "abcde", display_state_ := [⟨0, 5⟩],
    top_line_ := 2, word_wrap_ := true, width := 5, height := 3, cursor_y := 0 }

end twf

/-! ## Focus: the declarations of `src/include/cppurses/system/focus.hpp` -/

namespace cppurses

/-- The enumeration `Focus_policy`, with the five values that `focus_demo.hpp` switches over. -/
inductive Focus_policy where
  | None
  | Tab
  | Click
  | Strong
  | Direct
deriving DecidableEq, Repr

/-- Modelled from the spec: the class `Widget` (only forward-declared in `focus.hpp`), as far as
focus routing reads it: a node of a strict tree, with its `focus_policy` and the children it
owns. -/
inductive Widget where
  | mk (focus_policy : Focus_policy) (children : List Widget)

mutual
/-- Modelled from the spec: the tab order, "deterministic pre-order depth-first over the tree
rooted at the top-level widget", as the sequence of the focus policies met. -/
def Widget.preorder : Widget → List Focus_policy
  | Widget.mk p cs => p :: Widget.preorder_children cs
/-- The pre-order sequence of a list of sibling subtrees. -/
def Widget.preorder_children : List Widget → List Focus_policy
  | [] => []
  | w :: ws => Widget.preorder w ++ Widget.preorder_children ws
end

/-- The static members of the class `Focus`.  The pointer `focus_widget_` is the position of
the widget in the pre-order sequence of the tree, `none` for `nullptr`. -/
structure Focus where
  focus_widget_ : Option Nat
  tab_enabled_ : Bool
  tab_suppressed_ : Bool
deriving DecidableEq, Repr

/-- The accessor `Focus::focus_widget()`. -/
def Focus.focus_widget (f : Focus) : Option Nat := f.focus_widget_

/-- The method `Focus::enable_tab_focus()`. -/
def Focus.enable_tab_focus (f : Focus) : Focus := { f with tab_enabled_ := true }

/-- The method `Focus::disable_tab_focus()`. -/
def Focus.disable_tab_focus (f : Focus) : Focus := { f with tab_enabled_ := false }

/-- The method `Focus::suppress_tab()`. -/
def Focus.suppress_tab (f : Focus) : Focus := { f with tab_suppressed_ := true }

/-- The method `Focus::unsuppress_tab()`. -/
def Focus.unsuppress_tab (f : Focus) : Focus := { f with tab_suppressed_ := false }

/-- Modelled from the spec: the test of a tab traversal, "the first widget whose policy ∈
{Tab, Strong}", on the widget at position `j` of the pre-order sequence. -/
def Focus.tab_eligible (order : List Focus_policy) (j : Nat) : Bool :=
  match order[j]? with
  | some Focus_policy.Tab => true
  | some Focus_policy.Strong => true
  | _ => false

/-- Modelled from the spec: the positions a forward scan visits, "starting just after the
currently focused widget (or from the start if none focused), wrapping around to the beginning
if the end is reached", "exactly once around the full list". -/
def Focus.tab_scan (n : Nat) (current : Option Nat) : List Nat :=
  match current with
  | none => List.range n
  | some i => (List.range n).drop (i + 1) ++ (List.range n).take (i + 1)

/-- Modelled from the spec: `Focus::tab_press()` (declared in `focus.hpp`, defined elsewhere).
"If tab disabled or currently suppressed, consumes the suppression flag (if set) and returns
false without moving focus.  Otherwise performs a forward traversal [...] and stops at the first
widget whose policy ∈ {Tab, Strong}.  Sets focus there and returns true; if no eligible widget
exists anywhere in the tree, returns false and focus is unchanged"; a scan that comes back to
the holder itself is "a no-op returning false". -/
def Focus.tab_press (order : List Focus_policy) (f : Focus) : Focus × Bool :=
  if f.tab_enabled_ = false ∨ f.tab_suppressed_ = true then
    ({ f with tab_suppressed_ := false }, false)
  else
    match (Focus.tab_scan order.length f.focus_widget_).find? (Focus.tab_eligible order) with
    | none => (f, false)
    | some j =>
      if f.focus_widget_ = some j then (f, false)
      else ({ f with focus_widget_ := some j }, true)

/-- The state after `n` successive calls of `tab_press()`. -/
def Focus.tab_press_n (order : List Focus_policy) : Nat → Focus → Focus
  | 0, f => f
  | n + 1, f => (Focus.tab_press order (Focus.tab_press_n order n f)).1

/-- The Tab/Strong widgets of the tree, as positions in pre-order, in pre-order. -/
def Focus.tab_order (order : List Focus_policy) : List Nat :=
  (List.range order.length).filter (Focus.tab_eligible order)

/-- The next Tab/Strong widget after the holder in pre-order, the first one when nothing is
focused or when none follows the holder. -/
def Focus.tab_next (order : List Focus_policy) (current : Option Nat) : Option Nat :=
  match current with
  | none => (Focus.tab_order order)[0]?
  | some i =>
    match (Focus.tab_order order).find? (fun j => decide (i < j)) with
    | some j => some j
    | none => (Focus.tab_order order)[0]?

/-- A tree of five widgets whose policies are, in pre-order, Tab, None, Strong, Click, Tab. -/
def sample_tree : Widget :=
  Widget.mk Focus_policy.Tab
    [Widget.mk Focus_policy.None [Widget.mk Focus_policy.Strong []],
     Widget.mk Focus_policy.Click [], Widget.mk Focus_policy.Tab []]

/-- Tab focus enabled, not suppressed, no widget focused. -/
def sample_focus : Focus :=
  { focus_widget_ := none, tab_enabled_ := true, tab_suppressed_ := false }

end cppurses

namespace twf

/-! ## The loop of `update_display` -/

theorem scan_ok_init (contents : Glyph_string) (width : Nat) (hw : 0 < width) :
    scan_ok contents width scan_init := by
  simp [scan_ok, scan_init, hw]

theorem scan_ok_step (contents : Glyph_string) (width : Nat) (word_wrap : Bool) (g : Glyph)
    (s : scan_state) (hw : 0 < width) (hi : s.i < contents.length)
    (h : scan_ok contents width s) :
    scan_ok contents width (update_display_step width word_wrap g s) := by
  obtain ⟨h1, h2, h3, h4⟩ := h
  unfold update_display_step scan_ok
  simp only
  split_ifs <;> simp only <;> omega

/-- An invariant of the loop body holds when the loop exits, and the loop exits because its
condition fails. -/
theorem update_display_loop_induct (contents : Glyph_string) (width : Nat) (word_wrap : Bool)
    (P : scan_state → Prop)
    (hstep : ∀ s (h : s.i < contents.length), P s →
      P (update_display_step width word_wrap (contents.get ⟨s.i, h⟩) s)) :
    ∀ (fuel : Nat) (s s1 : scan_state), P s →
      update_display_loop contents width word_wrap fuel s = some s1 →
      P s1 ∧ contents.length ≤ s1.i := by
  intro fuel
  induction fuel with
  | zero =>
    intro s s1 hP h
    unfold update_display_loop at h
    split_ifs at h with hlt
    simp only [Option.some.injEq] at h
    subst h
    exact ⟨hP, by omega⟩
  | succ n ih =>
    intro s s1 hP h
    unfold update_display_loop at h
    split_ifs at h with hlt
    · exact ih _ _ (hstep s hlt hP) h
    · simp only [Option.some.injEq] at h
      subst h
      exact ⟨hP, by omega⟩

/-- The quantity `(size - start_index) * width - length` drops at every iteration. -/
theorem update_display_step_measure (contents : Glyph_string) (width : Nat) (word_wrap : Bool)
    (g : Glyph) (s : scan_state) (hi : s.i < contents.length)
    (h : scan_ok contents width s) :
    (contents.length - (update_display_step width word_wrap g s).start_index) * width
        - (update_display_step width word_wrap g s).length + 1
      ≤ (contents.length - s.start_index) * width - s.length := by
  obtain ⟨h1, h2, h3, h4⟩ := h
  have hA : 1 ≤ contents.length - s.start_index := by omega
  have key : ∀ n, 1 ≤ n →
      (contents.length - (s.start_index + n)) * width + width
        ≤ (contents.length - s.start_index) * width := by
    intro n hn
    have : contents.length - (s.start_index + n) + 1 ≤ contents.length - s.start_index := by
      omega
    calc (contents.length - (s.start_index + n)) * width + width
        = (contents.length - (s.start_index + n) + 1) * width := by ring
      _ ≤ (contents.length - s.start_index) * width := Nat.mul_le_mul_right _ this
  have hbig : width ≤ (contents.length - s.start_index) * width :=
    Nat.le_mul_of_pos_left _ hA
  have k1 := key (s.length + 1) (by omega)
  have k2 : s.last_space = 0 ∨
      (contents.length - (s.start_index + s.last_space)) * width + width
        ≤ (contents.length - s.start_index) * width := by
    rcases Nat.eq_zero_or_pos s.last_space with h0 | h0
    · exact Or.inl h0
    · exact Or.inr (key _ h0)
  unfold update_display_step
  simp only
  split_ifs with c1 c2 c3 c4 c5
  all_goals simp only
  all_goals omega

/-- With fuel for `(size - start_index) * width - length` iterations the loop exits. -/
theorem update_display_loop_total (contents : Glyph_string) (width : Nat) (word_wrap : Bool)
    (hw : 0 < width) :
    ∀ (fuel : Nat) (s : scan_state), scan_ok contents width s →
      (contents.length - s.start_index) * width - s.length ≤ fuel →
      ∃ s1, update_display_loop contents width word_wrap fuel s = some s1 := by
  intro fuel
  induction fuel with
  | zero =>
    intro s hs hm
    unfold update_display_loop
    by_cases hlt : s.i < contents.length
    · have := update_display_step_measure contents width word_wrap
        (contents.get ⟨s.i, hlt⟩) s hlt hs
      omega
    · exact ⟨s, by simp [hlt]⟩
  | succ n ih =>
    intro s hs hm
    unfold update_display_loop
    by_cases hlt : s.i < contents.length
    · have hd := update_display_step_measure contents width word_wrap
        (contents.get ⟨s.i, hlt⟩) s hlt hs
      simp only [hlt, dite_true]
      exact ih _ (scan_ok_step contents width word_wrap _ s hw hlt hs) (by omega)
    · exact ⟨s, by simp [hlt]⟩

/-- The loop of `update_display` exits, at `i = size`, in a state that satisfies every
invariant of its body. -/
theorem update_display_loop_exists (contents : Glyph_string) (width : Nat) (word_wrap : Bool)
    (hw : 0 < width) (P : scan_state → Prop) (hinit : P scan_init)
    (hstep : ∀ s (h : s.i < contents.length), scan_ok contents width s → P s →
      P (update_display_step width word_wrap (contents.get ⟨s.i, h⟩) s)) :
    ∃ s1, update_display_loop contents width word_wrap (contents.length * width) scan_init
        = some s1 ∧ scan_ok contents width s1 ∧ P s1 ∧ s1.i = contents.length := by
  obtain ⟨s1, h1⟩ := update_display_loop_total contents width word_wrap hw
    (contents.length * width) scan_init (scan_ok_init contents width hw)
    (by simp [scan_init])
  have h2 := update_display_loop_induct contents width word_wrap
    (fun s => scan_ok contents width s ∧ P s)
    (fun s h hs => ⟨scan_ok_step contents width word_wrap _ s hw h hs.1, hstep s h hs.1 hs.2⟩)
    _ scan_init s1 ⟨scan_ok_init contents width hw, hinit⟩ h1
  refine ⟨s1, h1, h2.1.1, h2.1.2, ?_⟩
  have := h2.1.1.2.2.2
  omega

/-- The result of the loop does not depend on the fuel: two budgets under which the loop
exits give the same state. -/
theorem update_display_loop_fuel (contents : Glyph_string) (width : Nat) (word_wrap : Bool) :
    ∀ (f1 f2 : Nat) (s a b : scan_state),
      update_display_loop contents width word_wrap f1 s = some a →
      update_display_loop contents width word_wrap f2 s = some b → a = b := by
  intro f1
  induction f1 with
  | zero =>
    intro f2 s a b h1 h2
    unfold update_display_loop at h1
    split_ifs at h1 with hlt
    cases f2 with
    | zero =>
      unfold update_display_loop at h2
      rw [if_neg hlt] at h2
      exact Option.some.inj (h1.symm.trans h2)
    | succ m =>
      unfold update_display_loop at h2
      rw [dif_neg hlt] at h2
      exact Option.some.inj (h1.symm.trans h2)
  | succ n ih =>
    intro f2 s a b h1 h2
    unfold update_display_loop at h1
    by_cases hlt : s.i < contents.length
    · rw [dif_pos hlt] at h1
      cases f2 with
      | zero =>
        unfold update_display_loop at h2
        rw [if_pos hlt] at h2
        exact Option.noConfusion h2
      | succ m =>
        unfold update_display_loop at h2
        rw [dif_pos hlt] at h2
        exact ih m _ a b h1 h2
    · rw [dif_neg hlt] at h1
      cases f2 with
      | zero =>
        unfold update_display_loop at h2
        rw [if_neg hlt] at h2
        exact Option.some.inj (h1.symm.trans h2)
      | succ m =>
        unfold update_display_loop at h2
        rw [dif_neg hlt] at h2
        exact Option.some.inj (h1.symm.trans h2)

/-! ## Contiguous tables -/

theorem contiguous_append (ls : List line_info) (a b n : Nat) (h : contiguous ls a b) :
    contiguous (ls ++ [{ start_index := b, length := n }]) a (b + n) := by
  induction ls generalizing a with
  | nil =>
    simp only [contiguous] at h
    subst h
    simp [contiguous]
  | cons l ls ih =>
    obtain ⟨h1, h2⟩ := h
    exact ⟨h1, ih _ h2⟩

theorem contiguous_le (ls : List line_info) (a b : Nat) (h : contiguous ls a b) : a ≤ b := by
  induction ls generalizing a with
  | nil => simp only [contiguous] at h; omega
  | cons l ls ih =>
    have := ih _ h.2
    omega

/-- Every line of a contiguous table lies between the two ends of the table. -/
theorem contiguous_bounds (ls : List line_info) (a b k : Nat) (x : line_info)
    (h : contiguous ls a b) (hx : ls[k]? = some x) :
    a ≤ x.start_index ∧ x.start_index + x.length ≤ b := by
  induction ls generalizing a k with
  | nil => simp at hx
  | cons l ls ih =>
    obtain ⟨h1, h2⟩ := h
    have hle := contiguous_le ls _ b h2
    cases k with
    | zero =>
      simp only [List.getElem?_cons_zero, Option.some.injEq] at hx
      subst hx
      omega
    | succ k =>
      simp only [List.getElem?_cons_succ] at hx
      have := ih _ k h2 hx
      omega

/-- In a contiguous table a line ends where the next one starts. -/
theorem contiguous_next (ls : List line_info) (a b k : Nat) (x y : line_info)
    (h : contiguous ls a b) (hx : ls[k]? = some x) (hy : ls[k + 1]? = some y) :
    x.start_index + x.length = y.start_index := by
  induction ls generalizing a k with
  | nil => simp at hx
  | cons l ls ih =>
    obtain ⟨h1, h2⟩ := h
    cases k with
    | zero =>
      simp only [List.getElem?_cons_zero, Option.some.injEq] at hx
      subst hx
      simp only [List.getElem?_cons_succ] at hy
      cases ls with
      | nil => simp at hy
      | cons m ms =>
        simp only [List.getElem?_cons_zero, Option.some.injEq] at hy
        subst hy
        rw [h1]
        exact h2.1.symm
    | succ k =>
      simp only [List.getElem?_cons_succ] at hx hy
      exact ih _ k h2 hx hy

/-- In a contiguous table an earlier line ends at or before the start of a later one. -/
theorem contiguous_mono (ls : List line_info) (a b j k : Nat) (x y : line_info)
    (h : contiguous ls a b) (hjk : j < k) (hx : ls[j]? = some x) (hy : ls[k]? = some y) :
    x.start_index + x.length ≤ y.start_index := by
  induction ls generalizing a j k with
  | nil => simp at hx
  | cons l ls ih =>
    obtain ⟨h1, h2⟩ := h
    cases k with
    | zero => omega
    | succ k =>
      simp only [List.getElem?_cons_succ] at hy
      cases j with
      | zero =>
        simp only [List.getElem?_cons_zero, Option.some.injEq] at hx
        subst hx
        have := (contiguous_bounds ls _ b k y h2 hy).1
        omega
      | succ j =>
        simp only [List.getElem?_cons_succ] at hx
        exact ih _ j k h2 (by omega) hx hy

theorem contiguous_head (ls : List line_info) (a b : Nat) (l : line_info)
    (h : contiguous ls a b) (hl : ls.head? = some l) : l.start_index = a := by
  cases ls with
  | nil => simp at hl
  | cons m ms =>
    simp only [List.head?_cons, Option.some.injEq] at hl
    subst hl
    exact h.1

theorem contiguous_last (ls : List line_info) (a b : Nat) (l : line_info)
    (h : contiguous ls a b) (hl : ls.getLast? = some l) : l.start_index + l.length = b := by
  induction ls generalizing a with
  | nil => simp at hl
  | cons m ms ih =>
    obtain ⟨h1, h2⟩ := h
    cases ms with
    | nil =>
      simp only [List.getLast?_singleton, Option.some.injEq] at hl
      subst hl
      simp only [contiguous] at h2
      omega
    | cons m2 ms2 =>
      rw [List.getLast?_cons_cons] at hl
      exact ih _ h2 hl

/-- The spans of a contiguous table, put end to end, are the slice of the buffer between the
two ends of the table. -/
theorem contiguous_spans (contents : Glyph_string) (ls : List line_info) (a b : Nat)
    (h : contiguous ls a b) :
    ls.flatMap (line_span contents) = (contents.drop a).take (b - a) := by
  induction ls generalizing a with
  | nil =>
    simp only [contiguous] at h
    subst h
    simp
  | cons l ls ih =>
    obtain ⟨h1, h2⟩ := h
    have hle := contiguous_le ls _ b h2
    rw [List.flatMap_cons, ih _ h2, line_span, h1]
    have : b - a = l.length + (b - (a + l.length)) := by omega
    rw [this, List.take_add, List.drop_drop]

theorem contiguous_length (ls : List line_info) (a b : Nat) (h : contiguous ls a b)
    (hpos : ∀ l ∈ ls, 1 ≤ l.length) : a + ls.length ≤ b := by
  induction ls generalizing a with
  | nil => simp only [contiguous] at h; simp; omega
  | cons l ls ih =>
    have h1 := hpos l (List.mem_cons_self _ _)
    have := ih _ h.2 (fun m hm => hpos m (List.mem_cons_of_mem _ hm))
    simp only [List.length_cons]
    omega

/-! ## The table built by `update_display` -/

/-- For a non-zero width the loop of `update_display` exits and the table it leaves is
contiguous from 0 to the size of the buffer, every line holding between 1 and `width` glyphs. -/
theorem update_display_lines_spec (contents : Glyph_string) (width : Nat) (word_wrap : Bool)
    (hw : 0 < width) :
    ∃ lines, update_display_lines contents width word_wrap = some lines ∧
      contiguous lines 0 contents.length ∧ ∀ l ∈ lines, 1 ≤ l.length ∧ l.length ≤ width := by
  obtain ⟨s1, hloop, hok, hP, hi⟩ := update_display_loop_exists contents width word_wrap hw
    (fun s => contiguous s.display_state 0 s.start_index ∧
      ∀ l ∈ s.display_state, 1 ≤ l.length ∧ l.length ≤ width)
    (by simp [scan_init, contiguous])
    (by
      intro s h hs hP
      obtain ⟨h1, h2, h3, h4⟩ := hs
      obtain ⟨hc, hl⟩ := hP
      unfold update_display_step
      simp only
      split_ifs
      all_goals simp only
      all_goals first
        | exact ⟨hc, hl⟩
        | (refine ⟨contiguous_append _ _ _ _ hc, ?_⟩
           intro l hmem
           rcases List.mem_append.mp hmem with hm | hm
           · exact hl l hm
           · simp only [List.mem_singleton] at hm
             subst hm
             simp only
             omega))
  obtain ⟨h1, h2, h3, h4⟩ := hok
  obtain ⟨hc, hl⟩ := hP
  unfold update_display_lines
  rw [hloop]
  simp only
  split_ifs with hz
  · refine ⟨_, rfl, ?_, ?_⟩
    · have := contiguous_append _ _ _ s1.length hc
      rwa [show s1.start_index + s1.length = contents.length by omega] at this
    · intro l hmem
      rcases List.mem_append.mp hmem with hm | hm
      · exact hl l hm
      · simp only [List.mem_singleton] at hm
        subst hm
        simp only
        omega
  · refine ⟨_, rfl, ?_, hl⟩
    rwa [show s1.start_index = contents.length by omega] at hc

/-- The subtraction `i -= length - last_space` of the word-wrap branch does not wrap around:
at every iteration `last_space` is at most the running length, and the rewind is at most `i`. -/
theorem update_display_scan_bounds (contents : Glyph_string) (width : Nat) (s : scan_state)
    (h : scan_ok contents width s) (hfull : s.length + 1 = width) :
    s.last_space ≤ s.length + 1 ∧ (1 ≤ s.last_space → s.length + 1 - s.last_space ≤ s.i) := by
  obtain ⟨h1, h2, h3, h4⟩ := h
  omega

/-- A table laid out for a non-zero width is contiguous, with lines of 1 to `width` glyphs. -/
theorem laid_out_spec (td : Text_display) (hw : 0 < td.width) (h : laid_out td) :
    contiguous td.display_state_ 0 td.contents_.length ∧
      ∀ l ∈ td.display_state_, 1 ≤ l.length ∧ l.length ≤ td.width := by
  obtain ⟨lines, h1, h2, h3⟩ := update_display_lines_spec td.contents_ td.width td.word_wrap_ hw
  unfold laid_out at h
  rw [h1] at h
  simp only [Option.some.injEq] at h
  subst h
  exact ⟨h2, h3⟩

/-- The rebuild `update_display` returns: it replaces the table by the freshly built one, keeps
the scroll offset or sets it to the last line, and touches nothing else. -/
theorem update_display_table (td : Text_display) (hw : 0 < td.width) :
    ∃ lines t, update_display_lines td.contents_ td.width td.word_wrap_ = some lines ∧
      update_display td = some { td with display_state_ := lines, top_line_ := t } ∧
      (t = td.top_line_ ∨ (lines ≠ [] ∧ lines.length ≤ td.top_line_ ∧ t = lines.length - 1)) := by
  obtain ⟨lines, h1, h2, h3⟩ := update_display_lines_spec td.contents_ td.width td.word_wrap_ hw
  suffices key : ∃ t, update_display td = some { td with display_state_ := lines, top_line_ := t }
      ∧ (t = td.top_line_ ∨ (lines ≠ [] ∧ lines.length ≤ td.top_line_ ∧ t = lines.length - 1)) by
    obtain ⟨t, k1, k2⟩ := key
    exact ⟨lines, t, h1, k1, k2⟩
  unfold update_display
  rw [h1]
  simp only [Nat.pos_iff_ne_zero.mp hw, if_false]
  by_cases hnil : lines = []
  · exact ⟨td.top_line_, by simp [hnil], Or.inl rfl⟩
  · have hlen := contiguous_length lines 0 _ h2 (fun l hl => (h3 l hl).1)
    have hpos : 0 < lines.length := List.length_pos.mpr hnil
    have hcl : 0 < td.contents_.length := by omega
    have hc : td.contents_ ≠ [] := List.length_pos.mp hcl
    have hg : glyph_at { td with display_state_ := lines }
        (last_index { td with display_state_ := lines })
        = some (td.contents_.get ⟨td.contents_.length - 1, by omega⟩) := by
      simp [glyph_at, last_index, hc, List.getElem?_eq_getElem]
    simp only [hnil, if_false, hg]
    split_ifs with c1 c2
    · exact ⟨td.top_line_, rfl, Or.inl rfl⟩
    · exact ⟨lines.length - 1, rfl, Or.inr ⟨hnil, c2, rfl⟩⟩
    · exact ⟨td.top_line_, rfl, Or.inl rfl⟩

/-- After a rebuild at a non-zero width the display is laid out. -/
theorem update_display_laid_out (td td1 : Text_display) (hw : 0 < td.width)
    (h : update_display td = some td1) : laid_out td1 := by
  obtain ⟨lines, t, h1, h2, -⟩ := update_display_table td hw
  rw [h2] at h
  obtain rfl := Option.some.inj h
  exact h1

theorem SIZE_MOD_eq : SIZE_MOD = 18446744073709551616 := by
  norm_num [SIZE_MOD]

/-- In a contiguous table `std::find_if` with the test of `line_at` stops at a line that
holds the offset. -/
theorem contiguous_findIdx (ls : List line_info) (a b index : Nat) (h : contiguous ls a b)
    (ha : a ≤ index) (hb : index < b) :
    ∃ x, ls[ls.findIdx fun info => decide (info.start_index + info.length > index)]? = some x ∧
      x.start_index ≤ index ∧ index < x.start_index + x.length := by
  induction ls generalizing a with
  | nil => simp only [contiguous] at h; omega
  | cons l ls ih =>
    obtain ⟨h1, h2⟩ := h
    rw [List.findIdx_cons]
    by_cases hc : l.start_index + l.length > index
    · simp only [hc, decide_True, cond_true, List.getElem?_cons_zero]
      exact ⟨l, rfl, by omega, hc⟩
    · simp only [hc, decide_False, cond_false, List.getElem?_cons_succ]
      exact ih _ h2 (by omega)

/-- In a laid-out display `line_at` finds, for an offset inside the buffer, a line of the
table that holds the offset. -/
theorem line_at_holds (td : Text_display) (hw : 0 < td.width) (hl : laid_out td) (index : Nat)
    (hi : index < td.contents_.length) :
    ∃ x, td.display_state_[line_at td index]? = some x ∧
      x.start_index ≤ index ∧ index < x.start_index + x.length := by
  obtain ⟨hc, -⟩ := laid_out_spec td hw hl
  unfold line_at
  rw [if_neg (by omega)]
  exact contiguous_findIdx _ 0 _ index hc (by omega) hi

/-- A laid-out table has at most as many lines as the buffer has glyphs. -/
theorem laid_out_length (td : Text_display) (hw : 0 < td.width) (hl : laid_out td) :
    td.display_state_.length ≤ td.contents_.length := by
  obtain ⟨hc, hp⟩ := laid_out_spec td hw hl
  have := contiguous_length _ 0 _ hc (fun l h => (hp l h).1)
  omega

/-- What one iteration does at a loop head that satisfies `scan_ok`: either it extends the
running line by a glyph that is not a line break, or it closes a line of `n` glyphs starting at
`start_index`, with `1 ≤ n ≤ length + 1`, and rescans from the glyph after that line; a line
break closes the whole running line. -/
theorem update_display_step_cases (contents : Glyph_string) (width : Nat) (word_wrap : Bool)
    (g : Glyph) (s : scan_state) (h : scan_ok contents width s) :
    ((update_display_step width word_wrap g s).display_state = s.display_state ∧
      (update_display_step width word_wrap g s).start_index = s.start_index ∧
      (update_display_step width word_wrap g s).i = s.i + 1 ∧
      (update_display_step width word_wrap g s).length = s.length + 1 ∧
      g.str ≠ '\n') ∨
    (∃ n, 1 ≤ n ∧ n ≤ s.length + 1 ∧
      (update_display_step width word_wrap g s).display_state
        = s.display_state ++ [{ start_index := s.start_index, length := n }] ∧
      (update_display_step width word_wrap g s).start_index = s.start_index + n ∧
      (update_display_step width word_wrap g s).i = s.start_index + n ∧
      (update_display_step width word_wrap g s).length = 0 ∧
      (g.str = '\n' → n = s.length + 1)) := by
  obtain ⟨h1, h2, h3, h4⟩ := h
  unfold update_display_step
  simp only
  split_ifs with c1 c2 c3 c4 c5
  all_goals first
    | exact Or.inl ⟨rfl, rfl, rfl, rfl, by assumption⟩
    | (right
       refine ⟨_, ?_, ?_, rfl, rfl, ?_, rfl, ?_⟩
       all_goals first
         | omega
         | (simp only; omega)
         | (intro hb; first | rfl | contradiction))

theorem is_break_get (contents : Glyph_string) (i : Nat) (h : i < contents.length) :
    is_break contents i ↔ (contents.get ⟨i, h⟩).str = '\n' := by
  unfold is_break
  rw [List.getElem?_eq_getElem h]
  constructor
  · rintro ⟨g, hg, hs⟩
    obtain rfl := Option.some.inj hg
    exact hs
  · intro hs
    exact ⟨_, rfl, hs⟩

theorem is_break_lt (contents : Glyph_string) (i : Nat) (h : is_break contents i) :
    i < contents.length := by
  obtain ⟨g, hg, -⟩ := h
  by_contra hge
  rw [List.getElem?_eq_none (by omega)] at hg
  exact Option.noConfusion hg

/-! ## Claims about the layout -/

/-- C1: for every buffer, every width > 0 and either word-wrap setting, `update_display` returns
and the table it builds partitions the buffer: the first line, if any, starts at 0, every line
ends where the next one starts, the last line ends at the size of the buffer, and the spans of
the lines put end to end are the buffer itself (so the table is empty only for an empty
buffer). -/
theorem update_display_partitions_buffer (td : Text_display) (hw : 0 < td.width) :
    ∃ td1, update_display td = some td1 ∧ td1.contents_ = td.contents_ ∧
      (∀ l, td1.display_state_.head? = some l → l.start_index = 0) ∧
      (∀ k a b, td1.display_state_[k]? = some a → td1.display_state_[k + 1]? = some b →
        a.start_index + a.length = b.start_index) ∧
      (∀ l, td1.display_state_.getLast? = some l →
        l.start_index + l.length = td.contents_.length) ∧
      td1.display_state_.flatMap (line_span td.contents_) = td.contents_ := by
  obtain ⟨lines, t, h1, h2, -⟩ := update_display_table td hw
  obtain ⟨lines1, k1, hc, -⟩ :=
    update_display_lines_spec td.contents_ td.width td.word_wrap_ hw
  rw [h1] at k1
  obtain rfl := Option.some.inj k1
  refine ⟨_, h2, rfl, ?_, ?_, ?_, ?_⟩
  · intro l hl
    exact contiguous_head lines 0 _ l hc hl
  · intro k a b ha hb
    exact contiguous_next lines 0 _ k a b hc ha hb
  · intro l hl
    exact contiguous_last lines 0 _ l hc hl
  · have := contiguous_spans td.contents_ lines 0 _ hc
    simpa using this

/-- C1, at the sample display. -/
theorem update_display_partitions_buffer_witness :
    ∃ td1, update_display sample_display = some td1 ∧
      td1.contents_ = sample_display.contents_ ∧
      (∀ l, td1.display_state_.head? = some l → l.start_index = 0) ∧
      (∀ k a b, td1.display_state_[k]? = some a → td1.display_state_[k + 1]? = some b →
        a.start_index + a.length = b.start_index) ∧
      (∀ l, td1.display_state_.getLast? = some l →
        l.start_index + l.length = sample_display.contents_.length) ∧
      td1.display_state_.flatMap (line_span sample_display.contents_)
        = sample_display.contents_ :=
  update_display_partitions_buffer sample_display (by decide)

/-- C2: the word-wrap branch does not always break after a space seen since the start of the
line.  On "a b", a line break, "cdefghij" at width 5 the offset of the space of the first line
is still in `last_space` when the second line fills up: that line is closed after 2 glyphs,
"cd", although no space follows the line break, it is not the last line, it is shorter than
the width and it ends with the glyph `d`. -/
theorem update_display_stale_last_space :
    (update_display sample_display).map (fun td => td.display_state_)
        = some [⟨0, 4⟩, ⟨4, 2⟩, ⟨6, 5⟩, ⟨11, 1⟩] ∧
      sample_display.contents_[3]? = some (Glyph.of_char '\n') ∧
      sample_display.contents_[5]? = some (Glyph.of_char 'd') ∧
      (∀ g ∈ sample_display.contents_.drop 4, g.str ≠ ' ') := by
  decide

/-- C3 (as stated, refuted): at width 10 with word wrap, "hello world foo" is not laid out as the
three lines {0,6}, {6,6}, {12,3}. -/
theorem update_display_hello_world_not_three_lines :
    (update_display
        { contents_ := Glyph_string.of_string "hello world foo", display_state_ := [],
          top_line_ := 0, word_wrap_ := true, width := 10, height := 3, cursor_y := 0 }).map
      (fun td => td.display_state_) ≠ some [⟨0, 6⟩, ⟨6, 6⟩, ⟨12, 3⟩] := by
  decide

/-- C3 (amended): at width 10 with word wrap, "hello world foo" is laid out as exactly two lines,
{0,6} for "hello " and {6,9} for "world foo" (9 glyphs fit in the width), whatever the previous
table, the scroll offset, the height and the cursor row. -/
theorem update_display_hello_world (old : List line_info) (top height cy : Nat) :
    (update_display
        { contents_ := Glyph_string.of_string "hello world foo", display_state_ := old,
          top_line_ := top, word_wrap_ := true, width := 10, height := height,
          cursor_y := cy }).map
      (fun td => td.display_state_) = some [⟨0, 6⟩, ⟨6, 9⟩] := by
  obtain ⟨lines, t, h1, h2, -⟩ := update_display_table
    { contents_ := Glyph_string.of_string "hello world foo", display_state_ := old,
      top_line_ := top, word_wrap_ := true, width := 10, height := height,
      cursor_y := cy } (by show 0 < 10; omega)
  have h3 : update_display_lines (Glyph_string.of_string "hello world foo") 10 true
      = some [⟨0, 6⟩, ⟨6, 9⟩] := by decide
  simp only at h1
  rw [h3] at h1
  obtain rfl := Option.some.inj h1
  rw [h2]
  rfl

/-- The table built for a non-zero width closes a line right after every line-break glyph, and
holds no line-break glyph inside a line. -/
theorem update_display_lines_breaks (contents : Glyph_string) (width : Nat) (word_wrap : Bool)
    (hw : 0 < width) :
    ∃ lines, update_display_lines contents width word_wrap = some lines ∧
      (∀ j, is_break contents j → ∃ l ∈ lines, l.start_index + l.length = j + 1) ∧
      (∀ l ∈ lines, ∀ j, l.start_index ≤ j → j + 1 < l.start_index + l.length →
        ¬ is_break contents j) := by
  obtain ⟨s1, hloop, hok, hP, hi⟩ := update_display_loop_exists contents width word_wrap hw
    (fun s =>
      (∀ j, j < s.start_index → is_break contents j →
        ∃ l ∈ s.display_state, l.start_index + l.length = j + 1) ∧
      (∀ l ∈ s.display_state, ∀ j, l.start_index ≤ j → j + 1 < l.start_index + l.length →
        ¬ is_break contents j) ∧
      (∀ j, s.start_index ≤ j → j < s.i → ¬ is_break contents j))
    (by
      refine ⟨?_, ?_, ?_⟩
      · intro j hj
        simp [scan_init] at hj
      · intro l hl
        simp [scan_init] at hl
      · intro j _ hj
        simp [scan_init] at hj)
    (by
      intro s h hs hP
      obtain ⟨q1, q2, q3⟩ := hP
      have hbr := is_break_get contents s.i h
      have hi := hs.1
      rcases update_display_step_cases contents width word_wrap (contents.get ⟨s.i, h⟩) s hs
        with ⟨e1, e2, e3, e4, e5⟩ | ⟨n, n1, n2, e1, e2, e3, e4, e5⟩
      · rw [e1, e2, e3]
        refine ⟨q1, q2, ?_⟩
        intro j hj1 hj2
        rcases Nat.lt_or_ge j s.i with hlt | hge
        · exact q3 j hj1 hlt
        · have : j = s.i := by omega
          subst this
          rw [hbr]
          exact e5
      · rw [e1, e2, e3]
        refine ⟨?_, ?_, ?_⟩
        · intro j hj hb
          rcases Nat.lt_or_ge j s.start_index with hlt | hge
          · obtain ⟨l, hl, hle⟩ := q1 j hlt hb
            exact ⟨l, List.mem_append_left _ hl, hle⟩
          · rcases Nat.lt_or_ge j s.i with hlt2 | hge2
            · exact absurd hb (q3 j hge hlt2)
            · refine ⟨⟨s.start_index, n⟩, by simp, ?_⟩
              simp only
              omega
        · intro l hl j hj1 hj2
          rcases List.mem_append.mp hl with hm | hm
          · exact q2 l hm j hj1 hj2
          · simp only [List.mem_singleton] at hm
            subst hm
            simp only at hj1 hj2
            exact q3 j hj1 (by omega)
        · intro j hj1 hj2
          omega)
  obtain ⟨h1, h2, h3, h4⟩ := hok
  obtain ⟨q1, q2, q3⟩ := hP
  have hall : ∀ j, is_break contents j → j < s1.start_index := by
    intro j hb
    have := is_break_lt contents j hb
    by_contra hge
    exact q3 j (by omega) (by omega) hb
  unfold update_display_lines
  rw [hloop]
  simp only
  split_ifs with hz
  · refine ⟨_, rfl, ?_, ?_⟩
    · intro j hb
      obtain ⟨l, hl, hle⟩ := q1 j (hall j hb) hb
      exact ⟨l, List.mem_append_left _ hl, hle⟩
    · intro l hl j hj1 hj2
      rcases List.mem_append.mp hl with hm | hm
      · exact q2 l hm j hj1 hj2
      · simp only [List.mem_singleton] at hm
        subst hm
        simp only at hj1 hj2
        exact q3 j hj1 (by omega)
  · exact ⟨_, rfl, fun j hb => q1 j (hall j hb) hb, q2⟩

/-- C8: for every buffer, every width > 0 and either word-wrap setting, `update_display`
returns and in the table it builds every line-break glyph is the last glyph of some line (a line
ends right after it), and no line holds a line-break glyph at another place than its last. -/
theorem update_display_breaks_close_lines (td : Text_display) (hw : 0 < td.width) :
    ∃ td1, update_display td = some td1 ∧
      (∀ j, is_break td.contents_ j →
        ∃ l ∈ td1.display_state_, l.start_index + l.length = j + 1) ∧
      (∀ l ∈ td1.display_state_, ∀ j, l.start_index ≤ j → j + 1 < l.start_index + l.length →
        ¬ is_break td.contents_ j) := by
  obtain ⟨lines, t, h1, h2, -⟩ := update_display_table td hw
  obtain ⟨lines1, k1, hb1, hb2⟩ :=
    update_display_lines_breaks td.contents_ td.width td.word_wrap_ hw
  rw [h1] at k1
  obtain rfl := Option.some.inj k1
  exact ⟨_, h2, hb1, hb2⟩

/-- C8, at the sample display, whose buffer holds a line break at offset 3. -/
theorem update_display_breaks_close_lines_witness :
    ∃ td1, update_display sample_display = some td1 ∧
      (∀ j, is_break sample_display.contents_ j →
        ∃ l ∈ td1.display_state_, l.start_index + l.length = j + 1) ∧
      (∀ l ∈ td1.display_state_, ∀ j, l.start_index ≤ j → j + 1 < l.start_index + l.length →
        ¬ is_break sample_display.contents_ j) :=
  update_display_breaks_close_lines sample_display (by decide)

/-- The first `m` full lines of the hard-break table. -/
theorem hard_break_table_full (n w m : Nat) (h : m * w ≤ n) :
    (List.range m).map (fun k => ({ start_index := k * w, length := min w (n - k * w) } : line_info))
      = (List.range m).map fun k => { start_index := k * w, length := w } := by
  apply List.map_congr_left
  intro k hk
  have hk1 : k + 1 ≤ m := List.mem_range.mp hk
  have : (k + 1) * w ≤ m * w := Nat.mul_le_mul_right _ hk1
  have h2 : (k + 1) * w = k * w + w := by ring
  simp only [line_info.mk.injEq, true_and]
  omega

/-- Without word wrap and without line-break glyphs the table built for a non-zero width is
the hard-break table. -/
theorem update_display_lines_no_wrap (contents : Glyph_string) (width : Nat) (hw : 0 < width)
    (hnb : ∀ g ∈ contents, g.str ≠ '\n') :
    update_display_lines contents width false
      = some (hard_break_table contents.length width) := by
  obtain ⟨s1, hloop, hok, hP, hi⟩ := update_display_loop_exists contents width false hw
    (fun s => ∃ m, s.start_index = m * width ∧
      s.display_state = (List.range m).map fun k => { start_index := k * width, length := width })
    ⟨0, by simp [scan_init], by simp [scan_init]⟩
    (by
      intro s h hs hP
      obtain ⟨m, hm1, hm2⟩ := hP
      have hg : (contents.get ⟨s.i, h⟩).str ≠ '\n' := hnb _ (List.get_mem _ _ _)
      unfold update_display_step
      simp only [hg, if_false, Bool.false_eq_true, false_and, ite_self]
      split_ifs with c1
      · refine ⟨m + 1, ?_, ?_⟩
        · simp only
          rw [hm1, c1]
          ring
        · simp only
          rw [List.range_succ, List.map_append, hm2, hm1, c1]
          rfl
      · exact ⟨m, hm1, hm2⟩)
  obtain ⟨h1, h2, h3, h4⟩ := hok
  obtain ⟨m, hm1, hm2⟩ := hP
  have hsucc : (m + 1) * width = m * width + width := by ring
  have hsucc2 : (m + 1 + 1) * width = m * width + width + width := by ring
  unfold update_display_lines hard_break_table
  rw [hloop]
  simp only
  split_ifs with hz
  · have hd : (contents.length + width - 1) / width = m + 1 :=
      Nat.div_eq_of_lt_le (by omega) (by omega)
    rw [hd, List.range_succ, List.map_append, hard_break_table_full _ _ _ (by omega), hm2, hm1]
    simp only [List.map_cons, List.map_nil, Option.some.injEq, List.append_cancel_left_eq,
      List.cons.injEq, line_info.mk.injEq, true_and, and_true]
    omega
  · have hd : (contents.length + width - 1) / width = m :=
      Nat.div_eq_of_lt_le (by omega) (by omega)
    rw [hd, hard_break_table_full _ _ _ (by omega), hm2]

/-- C7: without word wrap, for a width `w > 0` and a buffer of `n` glyphs none of which is a
line break, `update_display` returns and the table it builds breaks exactly every `w` glyphs:
it has `ceil(n / w)` lines and line `k` is `{k * w, min w (n - k * w)}`. -/
theorem update_display_hard_breaks (td : Text_display) (hww : td.word_wrap_ = false)
    (hw : 0 < td.width) (hnb : ∀ g ∈ td.contents_, g.str ≠ '\n') :
    ∃ td1, update_display td = some td1 ∧
      td1.display_state_.length = (td.contents_.length + td.width - 1) / td.width ∧
      ∀ k, k < td1.display_state_.length →
        td1.display_state_[k]? = some
          { start_index := k * td.width
            length := min td.width (td.contents_.length - k * td.width) } := by
  obtain ⟨lines, t, h1, h2, -⟩ := update_display_table td hw
  rw [hww, update_display_lines_no_wrap td.contents_ td.width hw hnb] at h1
  obtain rfl := Option.some.inj h1
  refine ⟨_, h2, ?_, ?_⟩
  · simp [hard_break_table]
  · intro k hk
    simp only [hard_break_table, List.length_map, List.length_range] at hk
    simp [hard_break_table, List.getElem?_map, List.getElem?_range hk]

/-- C7, at the sample display without word wrap: 10 glyphs at width 4 give 3 lines. -/
theorem update_display_hard_breaks_witness :
    ∃ td1, update_display sample_no_wrap = some td1 ∧
      td1.display_state_.length
        = (sample_no_wrap.contents_.length + sample_no_wrap.width - 1) / sample_no_wrap.width ∧
      ∀ k, k < td1.display_state_.length →
        td1.display_state_[k]? = some
          { start_index := k * sample_no_wrap.width
            length := min sample_no_wrap.width
              (sample_no_wrap.contents_.length - k * sample_no_wrap.width) } :=
  update_display_hard_breaks sample_no_wrap (by decide) (by decide) (by decide)

/-! ## Claims about the coordinate mappings -/

/-- C4: in a display laid out for a width > 0, whatever the scroll offset, `display_position`
returns for every offset `i` inside the buffer and `string_index` maps the cell it gives back
to `i`. -/
theorem string_index_display_position (td : Text_display) (i : Nat) (hw : 0 < td.width)
    (hl : laid_out td) (htop : td.top_line_ < SIZE_MOD) (hsize : td.contents_.length < SIZE_MOD)
    (hi : i < td.contents_.length) :
    ∃ p, display_position td i = some p ∧ string_index td p.x p.y = i := by
  obtain ⟨x, hx, hx1, hx2⟩ := line_at_holds td hw hl i hi
  have hlen := laid_out_length td hw hl
  have hlt : line_at td i < td.display_state_.length := by
    by_contra hge
    rw [List.getElem?_eq_none (by omega)] at hx
    exact Option.noConfusion hx
  have hne : td.display_state_ ≠ [] := by
    intro h0
    rw [h0] at hlt
    simp at hlt
  rw [SIZE_MOD_eq] at htop hsize
  have hy : (td.top_line_ + (line_at td i + 18446744073709551616 - td.top_line_)
      % 18446744073709551616) % 18446744073709551616 = line_at td i := by omega
  have hxx : (i + 18446744073709551616 - x.start_index) % 18446744073709551616
      = i - x.start_index := by omega
  refine ⟨⟨(i + SIZE_MOD - x.start_index) % SIZE_MOD,
    (line_at td i + SIZE_MOD - td.top_line_) % SIZE_MOD⟩, ?_, ?_⟩
  · unfold display_position
    rw [if_neg hne, if_neg (by omega)]
    simp only [hx]
  · unfold string_index
    simp only [SIZE_MOD_eq, hy, hxx, if_neg hne, List.getD_eq_getElem?_getD, hx, Option.getD_some]
    rw [if_neg (by omega), if_neg (by omega), if_neg (by omega)]
    omega

/-- C4, at offset 1 of the sample display scrolled to its third line: the row of the cell is
`0 - 2` as a `std::size_t`, and `string_index` still gives back 1. -/
theorem string_index_display_position_witness :
    ∃ p, display_position sample_scrolled 1 = some p ∧
      string_index sample_scrolled p.x p.y = 1 :=
  string_index_display_position sample_scrolled 1 (by decide) (by unfold laid_out; decide)
    (by decide) (by decide) (by decide)

/-- C9: in a display laid out for a width > 0, `line_at` gives for an offset inside the buffer
a line whose span holds the offset, and no other line of the table holds it (so it is the first
and only one); for an offset at or past the end of the buffer it gives the index of the last
line, 0 when the table is empty. -/
theorem line_at_spec (td : Text_display) (index : Nat) (hw : 0 < td.width) (hl : laid_out td) :
    (index < td.contents_.length →
      ∃ info, td.display_state_[line_at td index]? = some info ∧
        info.start_index ≤ index ∧ index < info.start_index + info.length ∧
        ∀ L info1, td.display_state_[L]? = some info1 → info1.start_index ≤ index →
          index < info1.start_index + info1.length → L = line_at td index) ∧
    (td.contents_.length ≤ index →
      line_at td index = if td.display_state_ = [] then 0 else td.display_state_.length - 1) := by
  constructor
  · intro hi
    obtain ⟨x, hx, hx1, hx2⟩ := line_at_holds td hw hl index hi
    obtain ⟨hc, -⟩ := laid_out_spec td hw hl
    refine ⟨x, hx, hx1, hx2, ?_⟩
    intro L info1 h1 h2 h3
    rcases Nat.lt_trichotomy L (line_at td index) with hlt | heq | hgt
    · have := contiguous_mono _ 0 _ L _ info1 x hc hlt h1 hx
      omega
    · exact heq
    · have := contiguous_mono _ 0 _ _ L x info1 hc hgt hx h1
      omega
  · intro hi
    unfold line_at
    rw [if_pos hi]

/-- C9, at the sample display scrolled to its third line, offset 5. -/
theorem line_at_spec_witness :
    (5 < sample_scrolled.contents_.length →
      ∃ info, sample_scrolled.display_state_[line_at sample_scrolled 5]? = some info ∧
        info.start_index ≤ 5 ∧ 5 < info.start_index + info.length ∧
        ∀ L info1, sample_scrolled.display_state_[L]? = some info1 → info1.start_index ≤ 5 →
          5 < info1.start_index + info1.length → L = line_at sample_scrolled 5) ∧
    (sample_scrolled.contents_.length ≤ 5 →
      line_at sample_scrolled 5
        = if sample_scrolled.display_state_ = [] then 0
          else sample_scrolled.display_state_.length - 1) :=
  line_at_spec sample_scrolled 5 (by decide) (by unfold laid_out; decide)

/-- C10 (as stated, refuted): `index_at` does not give `npos` for every non-zero line index
past the end of the table: on an empty table `index_at(5)` is 0. -/
theorem index_at_not_always_npos :
    ¬ ∀ (td : Text_display) (line : Nat), line ≠ 0 → td.display_state_.length ≤ line →
      index_at td line = some npos := by
  intro h
  have h1 := h sample_empty 5 (by decide) (by decide)
  revert h1
  decide

/-- C10 (amended): `index_at(line)` gives the start offset of the line for every line index
inside the table; for a line index past the end it gives `npos` when the table is not empty, and
0 when the table is empty (whatever the index). -/
theorem index_at_spec (td : Text_display) (line : Nat) :
    (∀ info, td.display_state_[line]? = some info →
      index_at td line = some info.start_index) ∧
    (td.display_state_ ≠ [] → td.display_state_.length ≤ line →
      index_at td line = some npos) ∧
    (td.display_state_ = [] → index_at td line = some 0) := by
  refine ⟨?_, ?_, ?_⟩
  · intro info hinfo
    have hlt : line < td.display_state_.length := by
      by_contra hge
      rw [List.getElem?_eq_none (by omega)] at hinfo
      exact Option.noConfusion hinfo
    have hne : td.display_state_ ≠ [] := by
      intro h0
      rw [h0] at hlt
      simp at hlt
    unfold index_at
    rw [if_neg hne, if_neg (by omega), hinfo]
    rfl
  · intro hne hge
    have hpos : 0 < td.display_state_.length := List.length_pos.mpr hne
    unfold index_at
    rw [if_neg hne, if_pos ⟨hge, by omega⟩]
  · intro h0
    unfold index_at
    rw [if_pos h0]

/-! ## Claims about scrolling -/

/-- C6: `scroll_down` does not clamp when `top_line() + n` wraps around.  The display of eleven
one-glyph lines is what the constructor builds; scrolled down by 5 its offset is 5 and its last
line is 10; `scroll_down(2^64 - 1)` then sets the offset to 4, where `min(last_line,
top_line + n)` is 10. -/
theorem scroll_down_wraps_around :
    Text_display.construct (Glyph_string.of_string "abcdefghijk") false 1 3 0 = some sample_tall ∧
      (scroll_down sample_tall 5).top_line_ = 5 ∧
      last_line (scroll_down sample_tall 5) = 10 ∧
      (scroll_down (scroll_down sample_tall 5) (2 ^ 64 - 1)).top_line_ = 4 ∧
      min (last_line (scroll_down sample_tall 5))
        ((scroll_down sample_tall 5).top_line_ + (2 ^ 64 - 1)) = 10 := by
  decide

/-! ## The scroll offset over the reachable states -/

theorem MAX_SIZE_eq : MAX_SIZE = 9223372036854775807 := by
  norm_num [MAX_SIZE]

theorem glyph_at_last_index (td : Text_display) :
    glyph_at td (last_index td) = td.contents_.getLast? := by
  unfold glyph_at last_index
  by_cases h : td.contents_ = []
  · simp [h]
  · rw [if_neg h, List.getLast?_eq_getElem?]

/-- When `top_line_ + size` does not wrap around, `row_length(last_line())` is the length of
the last line of the table. -/
theorem row_length_last_line (td : Text_display) (x : line_info)
    (hx : td.display_state_.getLast? = some x)
    (hsum : td.top_line_ + td.display_state_.length ≤ SIZE_MOD) :
    row_length td (last_line td) = x.length := by
  have hne : td.display_state_ ≠ [] := by
    intro h0
    rw [h0] at hx
    exact Option.noConfusion hx
  have hpos : 0 < td.display_state_.length := List.length_pos.mpr hne
  rw [SIZE_MOD_eq] at hsum
  have hline : (if (td.top_line_ + (td.display_state_.length - 1)) % 18446744073709551616
        ≥ td.display_state_.length then td.display_state_.length - 1
      else (td.top_line_ + (td.display_state_.length - 1)) % 18446744073709551616)
      = td.display_state_.length - 1 := by
    split_ifs <;> omega
  unfold row_length last_line
  rw [if_neg hne, if_neg hne]
  simp only [SIZE_MOD_eq, hline, List.getD_eq_getElem?_getD]
  rw [← List.getLast?_eq_getElem?, hx]
  rfl

/-- Whatever the table before, `update_display` leaves a state that satisfies `scroll_inv`. -/
theorem update_display_scroll_inv (td td1 : Text_display) (h : update_display td = some td1)
    (hs : td.contents_.length ≤ MAX_SIZE) (ht : td.top_line_ ≤ MAX_SIZE) :
    scroll_inv td1 := by
  unfold update_display at h
  by_cases hw0 : td.width = 0
  · rw [if_pos hw0] at h
    obtain rfl := Option.some.inj h
    exact ⟨hs, ht, by simp, Or.inl rfl⟩
  · have hw : 0 < td.width := Nat.pos_of_ne_zero hw0
    obtain ⟨lines, h1, hc, hp⟩ :=
      update_display_lines_spec td.contents_ td.width td.word_wrap_ hw
    have hlen := contiguous_length lines 0 _ hc (fun l hl => (hp l hl).1)
    rw [if_neg hw0, h1] at h
    simp only at h
    by_cases hnil : lines = []
    · rw [if_pos hnil] at h
      obtain rfl := Option.some.inj h
      exact ⟨hs, ht, by simp [hnil], Or.inl hnil⟩
    · have hpos : 0 < lines.length := List.length_pos.mpr hnil
      have hcl : td.contents_ ≠ [] := List.length_pos.mp (by omega)
      have hx := List.getLast?_eq_getLast lines hnil
      have hg := List.getLast?_eq_getLast td.contents_ hcl
      have hrow := row_length_last_line { td with display_state_ := lines } _ hx
        (by rw [SIZE_MOD_eq]; rw [MAX_SIZE_eq] at hs ht; simp only; omega)
      rw [if_neg hnil, glyph_at_last_index, hrow] at h
      simp only [hg] at h
      split_ifs at h with c1 c2
      · obtain rfl := Option.some.inj h
        refine ⟨hs, ht, by simp only; omega, Or.inr (Or.inl ?_)⟩
        rcases c1 with c1 | c1
        · exact Or.inl ⟨_, hx, c1⟩
        · exact Or.inr ⟨_, hg, c1⟩
      · obtain rfl := Option.some.inj h
        refine ⟨hs, ?_, by simp only; omega, Or.inr (Or.inr ?_)⟩
        · simp only
          omega
        · simp only
          omega
      · obtain rfl := Option.some.inj h
        refine ⟨hs, ht, by simp only; omega, Or.inr (Or.inr ?_)⟩
        simp only
        omega

/-- The rebuild `update_display` does not touch the buffer. -/
theorem update_display_contents (td td1 : Text_display) (h : update_display td = some td1) :
    td1.contents_ = td.contents_ := by
  by_cases hw0 : td.width = 0
  · unfold update_display at h
    rw [if_pos hw0] at h
    obtain rfl := Option.some.inj h
    rfl
  · obtain ⟨lines, t, -, h2, -⟩ := update_display_table td (Nat.pos_of_ne_zero hw0)
    rw [h2] at h
    obtain rfl := Option.some.inj h
    rfl

/-- A rebuild that starts from the scroll offset of a state satisfying `scroll_inv` ends in a
state satisfying it. -/
theorem rebuild_scroll_inv (td0 td td1 : Text_display) (h : update_display td0 = some td1)
    (ht : td0.top_line_ = td.top_line_) (hinv : scroll_inv td)
    (hs1 : td1.contents_.length ≤ MAX_SIZE) : scroll_inv td1 := by
  rw [update_display_contents td0 td1 h] at hs1
  exact update_display_scroll_inv td0 td1 h hs1 (by rw [ht]; exact hinv.2.1)

theorem scroll_up_scroll_inv (td : Text_display) (n : Nat) (hinv : scroll_inv td) :
    scroll_inv (scroll_up td n) := by
  obtain ⟨h1, h2, h3, h4⟩ := hinv
  unfold scroll_up
  split_ifs with c
  · refine ⟨h1, by simp only; omega, h3, ?_⟩
    rcases h4 with h4 | h4 | h4
    · exact Or.inl h4
    · exact Or.inr (Or.inl h4)
    · exact Or.inr (Or.inr (by simp only; omega))
  · refine ⟨h1, by simp only; omega, h3, ?_⟩
    rcases h4 with h4 | h4 | h4
    · exact Or.inl h4
    · exact Or.inr (Or.inl h4)
    · exact Or.inr (Or.inr (by simp only; omega))

/-- After `scroll_down` the scroll offset is at most `last_line()`, whatever it was before. -/
theorem scroll_down_le_last_line (td : Text_display) (n : Nat) :
    (scroll_down td n).top_line_ ≤ last_line td := by
  unfold scroll_down
  split_ifs with c
  · exact Nat.le_refl _
  · simp only
    omega

theorem scroll_down_scroll_inv (td : Text_display) (n : Nat) (hinv : scroll_inv td) :
    scroll_inv (scroll_down td n) := by
  obtain ⟨h1, h2, h3, h4⟩ := hinv
  have hle := scroll_down_le_last_line td n
  have hds : (scroll_down td n).display_state_ = td.display_state_ := by
    unfold scroll_down
    split_ifs <;> rfl
  have hcs : (scroll_down td n).contents_ = td.contents_ := by
    unfold scroll_down
    split_ifs <;> rfl
  have hll : last_line td ≤ td.display_state_.length - 1 := by
    unfold last_line
    split_ifs <;> omega
  refine ⟨by rw [hcs]; exact h1, by omega, by rw [hds, hcs]; exact h3, ?_⟩
  rw [hds]
  by_cases hnil : td.display_state_ = []
  · exact Or.inl hnil
  · have hpos : 0 < td.display_state_.length := List.length_pos.mpr hnil
    exact Or.inr (Or.inr (by omega))

/-- Every call leads from a state satisfying `scroll_inv` to a state satisfying it. -/
theorem run_scroll_inv (td td1 : Text_display) (op : Op) (h : Op.run td op = some td1)
    (hinv : scroll_inv td) (hs1 : td1.contents_.length ≤ MAX_SIZE) : scroll_inv td1 := by
  cases op with
  | set_text string => exact rebuild_scroll_inv _ td td1 h rfl hinv hs1
  | insert string index =>
    simp only [Op.run, insert] at h
    split_ifs at h with c1 c2 c3
    · exact rebuild_scroll_inv _ td td1 h rfl hinv hs1
    · exact rebuild_scroll_inv _ td td1 h rfl hinv hs1
  | append string => exact rebuild_scroll_inv _ td td1 h rfl hinv hs1
  | erase index length =>
    simp only [Op.run, erase] at h
    split_ifs at h with c1 c2 c3
    · obtain rfl := Option.some.inj h
      exact hinv
    · exact rebuild_scroll_inv _ td td1 h rfl hinv hs1
    · exact rebuild_scroll_inv _ td td1 h rfl hinv hs1
  | pop_back =>
    simp only [Op.run, pop_back] at h
    split_ifs at h with c1
    · obtain rfl := Option.some.inj h
      exact hinv
    · exact rebuild_scroll_inv _ td td1 h rfl hinv hs1
  | clear => exact rebuild_scroll_inv _ td td1 h rfl hinv hs1
  | scroll_up n =>
    obtain rfl := Option.some.inj h
    exact scroll_up_scroll_inv td n hinv
  | scroll_down n =>
    obtain rfl := Option.some.inj h
    exact scroll_down_scroll_inv td n hinv
  | resize width height => exact rebuild_scroll_inv _ td td1 h rfl hinv hs1

theorem reachable_scroll_inv (td : Text_display) (h : Reachable td) : scroll_inv td := by
  induction h with
  | construct content word_wrap width height cursor_y td hsize h =>
    exact update_display_scroll_inv _ td h hsize (by simp [MAX_SIZE])
  | step td td1 op _ h hsize ih => exact run_scroll_inv td td1 op h ih hsize

/-- C5 (as stated, refuted): a reachable state can have its scroll offset past the last line.
Construct the display on "a", "b", "c" separated by line breaks at width 5, scroll down by 2,
then set the text to "abcde": the table has one line and the offset is still 2. -/
theorem top_line_can_exceed_last_line :
    ∃ td, Reachable td ∧ ¬ td.top_line_ ≤ max 0 (td.display_state_.length - 1) :=
  ⟨sample_overscrolled,
    Reachable.step (scroll_down sample_three_lines 2) sample_overscrolled
      (Op.set_text (Glyph_string.of_string "abcde"))
      (Reachable.step sample_three_lines (scroll_down sample_three_lines 2) (Op.scroll_down 2)
        (Reachable.construct (Glyph_string.of_string "a\nb\nc") true 5 3 0 sample_three_lines
          (by decide) (by decide))
        rfl (by decide))
      (by decide) (by decide),
    by decide⟩

/-- C5 (amended): in every state reached from a freshly constructed `Text_display` by
`set_text`, `insert`, `append`, `erase`, `pop_back`, `clear`, `scroll_up`, `scroll_down` and
resizes, if the table is not empty and its last line neither fills the width nor ends the
buffer with a line-break glyph, then `top_line_ ≤ lines.size() - 1`. -/
theorem reachable_top_line_bound (td : Text_display) (h : Reachable td)
    (hne : td.display_state_ ≠ []) (hfull : ¬ last_line_full td) :
    td.top_line_ ≤ td.display_state_.length - 1 := by
  obtain ⟨-, -, -, h4⟩ := reachable_scroll_inv td h
  rcases h4 with h4 | h4 | h4
  · exact absurd h4 hne
  · exact absurd h4 hfull
  · omega

/-- C5 (amended), at the display on "a", "b", "c" scrolled down by 2: its last line holds one
glyph at width 5, the buffer ends with `c`, and the offset 2 is the last line. -/
theorem reachable_top_line_bound_witness :
    (scroll_down sample_three_lines 2).top_line_
      ≤ (scroll_down sample_three_lines 2).display_state_.length - 1 :=
  reachable_top_line_bound (scroll_down sample_three_lines 2)
    (Reachable.step sample_three_lines (scroll_down sample_three_lines 2) (Op.scroll_down 2)
      (Reachable.construct (Glyph_string.of_string "a\nb\nc") true 5 3 0 sample_three_lines
        (by decide) (by decide))
      rfl (by decide))
    (by decide)
    (by
      have h1 : (scroll_down sample_three_lines 2).display_state_.getLast? = some ⟨4, 1⟩ := by
        decide
      have h2 : (scroll_down sample_three_lines 2).contents_.getLast?
          = some (Glyph.of_char 'c') := by decide
      rintro (⟨l, hl, hw⟩ | ⟨g, hg, hs⟩)
      · rw [h1] at hl
        obtain rfl := Option.some.inj hl
        revert hw
        decide
      · rw [h2] at hg
        obtain rfl := Option.some.inj hg
        revert hs
        decide)

/-- The rebuild `update_display` always returns: the loop does not run out of fuel and
`glyph_at` does not throw. -/
theorem update_display_total (td : Text_display) : ∃ td1, update_display td = some td1 := by
  by_cases hw0 : td.width = 0
  · unfold update_display
    rw [if_pos hw0]
    exact ⟨_, rfl⟩
  · obtain ⟨lines, t, -, h2, -⟩ := update_display_table td (Nat.pos_of_ne_zero hw0)
    exact ⟨_, h2⟩

/-! ## Further claims about the rebuild -/

/-- C19: for every buffer, every width > 0 and either word-wrap setting, `update_display`
returns and every line of the table it builds holds at least 1 and at most `width` glyphs. -/
theorem update_display_line_lengths (td : Text_display) (hw : 0 < td.width) :
    ∃ td1, update_display td = some td1 ∧
      ∀ l ∈ td1.display_state_, 1 ≤ l.length ∧ l.length ≤ td.width := by
  obtain ⟨lines, t, h1, h2, -⟩ := update_display_table td hw
  obtain ⟨lines1, k1, -, hp⟩ :=
    update_display_lines_spec td.contents_ td.width td.word_wrap_ hw
  rw [h1] at k1
  obtain rfl := Option.some.inj k1
  exact ⟨_, h2, hp⟩

/-- C19, at the sample display. -/
theorem update_display_line_lengths_witness :
    ∃ td1, update_display sample_display = some td1 ∧
      ∀ l ∈ td1.display_state_, 1 ≤ l.length ∧ l.length ≤ sample_display.width :=
  update_display_line_lengths sample_display (by decide)

/-- C20: for every buffer, every width > 0 and either word-wrap setting the loop of
`update_display` exits, at `i = size`, under every fuel budget of at least `size * width`
iterations; at a loop head every iteration keeps `start_index ≤ size` and either leaves the table
and `start_index` alone or closes one line and advances `start_index` by its length, at least 1;
and the rebuild returns a table with at most as many lines as the buffer has glyphs. -/
theorem update_display_terminates (td : Text_display) (hw : 0 < td.width) :
    (∀ fuel, td.contents_.length * td.width ≤ fuel →
      ∃ s1, update_display_loop td.contents_ td.width td.word_wrap_ fuel scan_init = some s1 ∧
        s1.i = td.contents_.length) ∧
    (∀ (s : scan_state) (g : Glyph), scan_ok td.contents_ td.width s →
      s.i < td.contents_.length →
      scan_ok td.contents_ td.width (update_display_step td.width td.word_wrap_ g s) ∧
      (update_display_step td.width td.word_wrap_ g s).start_index ≤ td.contents_.length ∧
      (((update_display_step td.width td.word_wrap_ g s).display_state = s.display_state ∧
          (update_display_step td.width td.word_wrap_ g s).start_index = s.start_index) ∨
        ∃ n, 1 ≤ n ∧
          (update_display_step td.width td.word_wrap_ g s).display_state
            = s.display_state ++ [{ start_index := s.start_index, length := n }] ∧
          (update_display_step td.width td.word_wrap_ g s).start_index = s.start_index + n)) ∧
    (∃ td1, update_display td = some td1 ∧
      td1.display_state_.length ≤ td.contents_.length) := by
  refine ⟨?_, ?_, ?_⟩
  · intro fuel hfuel
    obtain ⟨s1, h1⟩ := update_display_loop_total td.contents_ td.width td.word_wrap_ hw fuel
      scan_init (scan_ok_init _ _ hw) (by simp only [scan_init, Nat.sub_zero]; omega)
    have h2 := update_display_loop_induct td.contents_ td.width td.word_wrap_
      (fun s => scan_ok td.contents_ td.width s)
      (fun s h hs => scan_ok_step _ _ _ _ s hw h hs) fuel scan_init s1
      (scan_ok_init _ _ hw) h1
    have := h2.1.2.2.2
    exact ⟨s1, h1, by omega⟩
  · intro s g hs hi
    have hok := scan_ok_step td.contents_ td.width td.word_wrap_ g s hw hi hs
    refine ⟨hok, ?_, ?_⟩
    · obtain ⟨k1, k2, k3, k4⟩ := hok
      omega
    · rcases update_display_step_cases td.contents_ td.width td.word_wrap_ g s hs
        with ⟨e1, e2, -⟩ | ⟨n, n1, -, e1, e2, -⟩
      · exact Or.inl ⟨e1, e2⟩
      · exact Or.inr ⟨n, n1, e1, e2⟩
  · obtain ⟨lines, t, h1, h2, -⟩ := update_display_table td hw
    obtain ⟨lines1, k1, hc, hp⟩ :=
      update_display_lines_spec td.contents_ td.width td.word_wrap_ hw
    rw [h1] at k1
    obtain rfl := Option.some.inj k1
    have := contiguous_length lines 0 _ hc (fun l hl => (hp l hl).1)
    exact ⟨_, h2, by simp only; omega⟩

/-- C20, at the sample display. -/
theorem update_display_terminates_witness :
    ∃ td1, update_display sample_display = some td1 ∧
      td1.display_state_.length ≤ sample_display.contents_.length :=
  (update_display_terminates sample_display (by decide)).2.2

/-- C17: `update_display` returns a state with the same buffer, width, word-wrap flag, height
and cursor row, and with the same scroll offset except in one case: when the new table is not
empty, its last line neither fills the width nor ends the buffer with a line-break glyph, and
the offset is at or past the size of the table, the offset becomes `size - 1`.  (The offset and
the buffer size are such that `top_line_ + size` does not wrap around.) -/
theorem update_display_top_line (td : Text_display)
    (hsum : td.top_line_ + td.contents_.length ≤ SIZE_MOD) :
    ∃ td1, update_display td = some td1 ∧
      td1.contents_ = td.contents_ ∧ td1.width = td.width ∧ td1.word_wrap_ = td.word_wrap_ ∧
      td1.height = td.height ∧ td1.cursor_y = td.cursor_y ∧
      (td1.display_state_ ≠ [] ∧ ¬ last_line_full td1 ∧
          td1.display_state_.length ≤ td.top_line_ →
        td1.top_line_ = td1.display_state_.length - 1) ∧
      (¬ (td1.display_state_ ≠ [] ∧ ¬ last_line_full td1 ∧
          td1.display_state_.length ≤ td.top_line_) →
        td1.top_line_ = td.top_line_) := by
  unfold update_display
  by_cases hw0 : td.width = 0
  · rw [if_pos hw0]
    refine ⟨_, rfl, rfl, rfl, rfl, rfl, rfl, ?_, fun _ => rfl⟩
    rintro ⟨h1, -⟩
    exact absurd rfl h1
  · have hw : 0 < td.width := Nat.pos_of_ne_zero hw0
    obtain ⟨lines, h1, hc, hp⟩ :=
      update_display_lines_spec td.contents_ td.width td.word_wrap_ hw
    have hlen := contiguous_length lines 0 _ hc (fun l hl => (hp l hl).1)
    rw [if_neg hw0, h1]
    simp only
    by_cases hnil : lines = []
    · rw [if_pos hnil]
      refine ⟨_, rfl, rfl, rfl, rfl, rfl, rfl, ?_, fun _ => rfl⟩
      rintro ⟨k1, -⟩
      exact absurd hnil k1
    · have hpos : 0 < lines.length := List.length_pos.mpr hnil
      have hcl : td.contents_ ≠ [] := List.length_pos.mp (by omega)
      have hx := List.getLast?_eq_getLast lines hnil
      have hg := List.getLast?_eq_getLast td.contents_ hcl
      have hrow := row_length_last_line { td with display_state_ := lines } _ hx
        (by simp only; omega)
      rw [if_neg hnil, glyph_at_last_index, hrow]
      simp only [hg]
      have hfull : ∀ t : Nat,
          last_line_full { td with display_state_ := lines, top_line_ := t } ↔
            ((lines.getLast hnil).length = td.width ∨
              (td.contents_.getLast hcl).str = '\n') := by
        intro t
        unfold last_line_full
        simp only [hx, hg, Option.some.injEq]
        constructor
        · rintro (⟨l, rfl, h⟩ | ⟨g, rfl, h⟩)
          · exact Or.inl h
          · exact Or.inr h
        · rintro (h | h)
          · exact Or.inl ⟨_, rfl, h⟩
          · exact Or.inr ⟨_, rfl, h⟩
      split_ifs with c1 c2
      · refine ⟨_, rfl, rfl, rfl, rfl, rfl, rfl, ?_, fun _ => rfl⟩
        rintro ⟨-, k2, -⟩
        exact absurd ((hfull td.top_line_).mpr c1) k2
      · refine ⟨_, rfl, rfl, rfl, rfl, rfl, rfl, fun _ => rfl, ?_⟩
        intro k
        exact absurd ⟨hnil, fun hf => c1 ((hfull _).mp hf), c2⟩ k
      · refine ⟨_, rfl, rfl, rfl, rfl, rfl, rfl, ?_, fun _ => rfl⟩
        rintro ⟨-, -, k3⟩
        exact absurd k3 c2

/-- C17, at the display on "a", "b", "c" with the scroll offset 7: the offset becomes 2. -/
theorem update_display_top_line_witness :
    ∃ td1, update_display { sample_three_lines with top_line_ := 7 } = some td1 ∧
      td1.contents_ = sample_three_lines.contents_ ∧ td1.width = sample_three_lines.width ∧
      td1.word_wrap_ = sample_three_lines.word_wrap_ ∧
      td1.height = sample_three_lines.height ∧ td1.cursor_y = sample_three_lines.cursor_y ∧
      (td1.display_state_ ≠ [] ∧ ¬ last_line_full td1 ∧ td1.display_state_.length ≤ 7 →
        td1.top_line_ = td1.display_state_.length - 1) ∧
      (¬ (td1.display_state_ ≠ [] ∧ ¬ last_line_full td1 ∧ td1.display_state_.length ≤ 7) →
        td1.top_line_ = 7) :=
  update_display_top_line { sample_three_lines with top_line_ := 7 } (by decide)

/-- C18: `insert` into an empty buffer does not leave the inserted string alone in the buffer:
the string is appended and then inserted again, so inserting "ab" at 0 into the empty display
leaves "abab", 4 glyphs where the claim has 2. -/
theorem insert_into_empty_doubles :
    (insert sample_empty (Glyph_string.of_string "ab") 0).map (fun td => td.contents_)
        = some (Glyph_string.of_string "abab") ∧
      sample_empty.contents_.take 0 ++ Glyph_string.of_string "ab"
          ++ sample_empty.contents_.drop 0 = Glyph_string.of_string "ab" := by
  decide

/-! ## Further claims about the queries -/

/-- C14: for every state with `height ≥ 1`, `number_of_rows()` lies between 1 and the height;
when `top_line_ ≤ last_line()` it is `min(height, 1 + last_line - top_line)`; and it is exactly 1
for a table of at most one line and for a scroll offset at the last line. -/
theorem number_of_rows_spec (td : Text_display) (hh : 1 ≤ td.height) :
    1 ≤ number_of_rows td ∧ number_of_rows td ≤ td.height ∧
      (td.top_line_ ≤ last_line td →
        number_of_rows td = min td.height (1 + last_line td - td.top_line_)) ∧
      (last_line td = 0 ∨ td.top_line_ = last_line td → number_of_rows td = 1) := by
  unfold number_of_rows
  simp only
  refine ⟨?_, ?_, ?_, ?_⟩
  · split_ifs <;> omega
  · split_ifs <;> omega
  · intro h
    split_ifs <;> omega
  · intro h
    split_ifs <;> omega

/-- C14, at the sample display scrolled to its third line: 2 of its 4 lines are visible. -/
theorem number_of_rows_spec_witness :
    1 ≤ number_of_rows sample_scrolled ∧ number_of_rows sample_scrolled ≤ sample_scrolled.height ∧
      (sample_scrolled.top_line_ ≤ last_line sample_scrolled →
        number_of_rows sample_scrolled
          = min sample_scrolled.height
              (1 + last_line sample_scrolled - sample_scrolled.top_line_)) ∧
      (last_line sample_scrolled = 0 ∨ sample_scrolled.top_line_ = last_line sample_scrolled →
        number_of_rows sample_scrolled = 1) :=
  number_of_rows_spec sample_scrolled (by decide)

/-- Every query on an empty table gives its default. -/
theorem queries_on_empty_table (td : Text_display) (h : td.display_state_ = [])
    (x y l i : Nat) :
    row_length td y = 0 ∧ line_length td l = 0 ∧ line_at td i = 0 ∧ index_at td l = some 0 ∧
      string_index td x y = 0 ∧ display_position td i = some { x := 0, y := 0 } := by
  refine ⟨?_, ?_, ?_, ?_, ?_, ?_⟩
  · unfold row_length
    rw [if_pos h]
  · unfold line_length
    rw [if_pos h]
  · unfold line_at
    rw [h]
    split_ifs <;> rfl
  · unfold index_at
    rw [if_pos h]
  · unfold string_index
    rw [if_pos h]
  · unfold display_position
    rw [if_pos h]

/-- C15: when the buffer is empty or the width is 0, `update_display` returns, the table it
leaves is empty, and on that state `row_length`, `line_length`, `line_at`, `index_at` and
`string_index` give 0 and `display_position` gives (0, 0), for all arguments, none of them
throwing. -/
theorem update_display_degenerate (td : Text_display)
    (h : td.contents_ = [] ∨ td.width = 0) :
    ∃ td1, update_display td = some td1 ∧ td1.display_state_ = [] ∧
      ∀ x y l i : Nat,
        row_length td1 y = 0 ∧ line_length td1 l = 0 ∧ line_at td1 i = 0 ∧
          index_at td1 l = some 0 ∧ string_index td1 x y = 0 ∧
          display_position td1 i = some { x := 0, y := 0 } := by
  have key : ∃ td1, update_display td = some td1 ∧ td1.display_state_ = [] := by
    by_cases hw0 : td.width = 0
    · unfold update_display
      rw [if_pos hw0]
      exact ⟨_, rfl, rfl⟩
    · have hc : td.contents_ = [] := h.resolve_right hw0
      have hw : 0 < td.width := Nat.pos_of_ne_zero hw0
      obtain ⟨lines, t, h1, h2, -⟩ := update_display_table td hw
      obtain ⟨lines1, k1, hcont, hp⟩ :=
        update_display_lines_spec td.contents_ td.width td.word_wrap_ hw
      rw [h1] at k1
      obtain rfl := Option.some.inj k1
      have hlen := contiguous_length lines 0 _ hcont (fun l hl => (hp l hl).1)
      rw [hc] at hlen
      have hnil : lines = [] := List.length_eq_zero.mp (by simpa using hlen)
      exact ⟨_, h2, hnil⟩
  obtain ⟨td1, k1, k2⟩ := key
  exact ⟨td1, k1, k2, fun x y l i => queries_on_empty_table td1 k2 x y l i⟩

/-- C15, at the empty display: `row_length(0) == 0` and `display_position(0) == (0, 0)` on the
state that `update_display` leaves. -/
theorem update_display_degenerate_witness :
    ∃ td1, update_display sample_empty = some td1 ∧ td1.display_state_ = [] ∧
      ∀ x y l i : Nat,
        row_length td1 y = 0 ∧ line_length td1 l = 0 ∧ line_at td1 i = 0 ∧
          index_at td1 l = some 0 ∧ string_index td1 x y = 0 ∧
          display_position td1 i = some { x := 0, y := 0 } :=
  update_display_degenerate sample_empty (Or.inl rfl)

/-- C11 (as stated, refuted): `string_index` does not give `npos` for every cell whose target
line is missing: on an empty table `string_index(0, 0)` is 0. -/
theorem string_index_not_always_npos :
    ¬ ∀ (td : Text_display) (x y : Nat), td.display_state_.length ≤ td.top_line_ + y →
      string_index td x y = npos := by
  intro h
  have h1 := h sample_empty 0 0 (by decide)
  revert h1
  decide

/-- C11 (amended): on a table that is not empty, `string_index(x, y)` gives `npos` for every
cell whose target line `top_line_ + y`, the `std::size_t` sum that the code computes, is at or
past the size of the table; on an empty table it gives 0 for every cell. -/
theorem string_index_missing_line (td : Text_display) (x y : Nat) :
    (td.display_state_ ≠ [] → td.display_state_.length ≤ (td.top_line_ + y) % SIZE_MOD →
      string_index td x y = npos) ∧
    (td.display_state_ = [] → string_index td x y = 0) := by
  constructor
  · intro hne hge
    unfold string_index
    rw [if_neg hne]
    simp only
    rw [if_pos hge]
  · intro h0
    unfold string_index
    rw [if_pos h0]

/-- C12: in a display laid out for a width > 0, for every cell `(x, y)` whose target line
`L = top_line_ + y` is in the table: `string_index(x, y)` is `start_index + x` when `x` is
inside the line; when `x` is at or past the length of the line it is `npos` if `L` is the
last line of the table and `start_index + length - 1` otherwise. -/
theorem string_index_spec (td : Text_display) (x y : Nat) (info : line_info)
    (hw : 0 < td.width) (hl : laid_out td) (hsize : td.contents_.length < SIZE_MOD)
    (hline : td.display_state_[td.top_line_ + y]? = some info) :
    (x < info.length → string_index td x y = info.start_index + x) ∧
    (info.length ≤ x → td.top_line_ + y = td.display_state_.length - 1 →
      string_index td x y = npos) ∧
    (info.length ≤ x → td.top_line_ + y ≠ td.display_state_.length - 1 →
      string_index td x y = info.start_index + info.length - 1) := by
  obtain ⟨hc, hp⟩ := laid_out_spec td hw hl
  have hlen := laid_out_length td hw hl
  have hlt : td.top_line_ + y < td.display_state_.length := by
    by_contra hge
    rw [List.getElem?_eq_none (by omega)] at hline
    exact Option.noConfusion hline
  have hne : td.display_state_ ≠ [] := by
    intro h0
    rw [h0] at hlt
    simp at hlt
  have hmem : info ∈ td.display_state_ := List.getElem?_mem hline
  have hpos := (hp info hmem).1
  have hb := (contiguous_bounds _ 0 _ _ info hc hline).2
  rw [SIZE_MOD_eq] at hsize
  have hmod : (td.top_line_ + y) % 18446744073709551616 = td.top_line_ + y := by omega
  unfold string_index
  simp only [SIZE_MOD_eq, hmod, if_neg hne, List.getD_eq_getElem?_getD, hline,
    Option.getD_some]
  rw [if_neg (by omega), if_neg (by omega)]
  refine ⟨?_, ?_, ?_⟩
  · intro hx
    rw [if_neg (by omega)]
    omega
  · intro hx hlast
    rw [if_pos hx, if_pos hlast]
  · intro hx hlast
    rw [if_pos hx, if_neg hlast]
    omega

/-- C12, at the sample display scrolled to its third line, for the cell at column 9 of row 0
(past the 5 glyphs of the line, which is not the last one). -/
theorem string_index_spec_witness :
    (9 < 5 → string_index sample_scrolled 9 0 = 6 + 9) ∧
    (5 ≤ 9 → sample_scrolled.top_line_ + 0 = sample_scrolled.display_state_.length - 1 →
      string_index sample_scrolled 9 0 = npos) ∧
    (5 ≤ 9 → sample_scrolled.top_line_ + 0 ≠ sample_scrolled.display_state_.length - 1 →
      string_index sample_scrolled 9 0 = 6 + 5 - 1) :=
  string_index_spec sample_scrolled 9 0 ⟨6, 5⟩ (by decide) (by unfold laid_out; decide)
    (by decide) (by decide)

/-- The row count is at least 1 for a height of at least 1, and at most the number of lines of
a table that is not empty. -/
theorem number_of_rows_bounds (td : Text_display) (hne : td.display_state_ ≠ []) :
    (1 ≤ td.height → 1 ≤ number_of_rows td) ∧ number_of_rows td ≤ td.display_state_.length := by
  have hpos : 0 < td.display_state_.length := List.length_pos.mpr hne
  unfold number_of_rows last_line
  rw [if_neg hne]
  simp only
  constructor
  · intro hh
    split_ifs <;> omega
  · split_ifs <;> omega

/-- C13: in a display laid out for a width > 0 whose table is not empty, for every index at or
past the end of the buffer `display_position` returns, and with `l` the last line of the table
and `g` the last glyph of the buffer: if `l` fills the width or `g` is a line break, `x` is 0
and `y` is 0 when `cursor_y` is 0 and `l` fills the width, `number_of_rows() - 1` when
`cursor_y` is 0 otherwise, and `number_of_rows()` when `cursor_y` is not 0; in every other case
`x` is the length of `l` and `y` is `number_of_rows() - 1`.  The difference
`number_of_rows() - 1` is a `std::size_t` difference; it is the plain one for a height of at
least 1.  (The offset and the table size are such that `top_line_ + size` does not wrap
around.) -/
theorem display_position_past_end (td : Text_display) (index : Nat) (hw : 0 < td.width)
    (hl : laid_out td) (hne : td.display_state_ ≠ [])
    (hsum : td.top_line_ + td.display_state_.length ≤ SIZE_MOD)
    (hi : td.contents_.length ≤ index) :
    ∃ l g, td.display_state_.getLast? = some l ∧ td.contents_.getLast? = some g ∧
      display_position td index = some
        (if l.length = td.width ∨ g.str = '\n' then
          { x := 0
            y := if td.cursor_y = 0 ∧ l.length = td.width then 0
              else if td.cursor_y = 0 then (number_of_rows td + SIZE_MOD - 1) % SIZE_MOD
              else number_of_rows td }
        else { x := l.length, y := (number_of_rows td + SIZE_MOD - 1) % SIZE_MOD }) ∧
      (1 ≤ td.height → (number_of_rows td + SIZE_MOD - 1) % SIZE_MOD = number_of_rows td - 1) := by
  have hlen := laid_out_length td hw hl
  have hpos : 0 < td.display_state_.length := List.length_pos.mpr hne
  have hcl : td.contents_ ≠ [] := List.length_pos.mp (by omega)
  have hx := List.getLast?_eq_getLast td.display_state_ hne
  have hg := List.getLast?_eq_getLast td.contents_ hcl
  have hrow := row_length_last_line td _ hx hsum
  obtain ⟨hr1, hr2⟩ := number_of_rows_bounds td hne
  refine ⟨_, _, hx, hg, ?_, ?_⟩
  · unfold display_position
    rw [if_neg hne, if_pos hi, glyph_at_last_index, hrow]
    simp only [hg]
    split_ifs <;> first | rfl | (exfalso; tauto)
  · intro hh
    have := hr1 hh
    rw [SIZE_MOD_eq] at hsum ⊢
    omega

/-- C13, at the sample display scrolled to its third line, index 40: the last line holds one
glyph, `j`, so the caret is at column 1 of row `number_of_rows() - 1`. -/
theorem display_position_past_end_witness :
    ∃ l g, sample_scrolled.display_state_.getLast? = some l ∧
      sample_scrolled.contents_.getLast? = some g ∧
      display_position sample_scrolled 40 = some
        (if l.length = sample_scrolled.width ∨ g.str = '\n' then
          { x := 0
            y := if sample_scrolled.cursor_y = 0 ∧ l.length = sample_scrolled.width then 0
              else if sample_scrolled.cursor_y = 0 then
                (number_of_rows sample_scrolled + SIZE_MOD - 1) % SIZE_MOD
              else number_of_rows sample_scrolled }
        else { x := l.length, y := (number_of_rows sample_scrolled + SIZE_MOD - 1) % SIZE_MOD }) ∧
      (1 ≤ sample_scrolled.height →
        (number_of_rows sample_scrolled + SIZE_MOD - 1) % SIZE_MOD
          = number_of_rows sample_scrolled - 1) :=
  display_position_past_end sample_scrolled 40 (by decide) (by unfold laid_out; decide)
    (by decide) (by decide) (by decide)

end twf

/-! ## Tab traversal -/

namespace cppurses

theorem find?_eq_filter_first (p : Nat → Bool) (l : List Nat) :
    l.find? p = (l.filter p)[0]? := by
  induction l with
  | nil => rfl
  | cons a t ih =>
    by_cases h : p a = true
    · rw [List.find?_cons_of_pos _ h, List.filter_cons_of_pos h, List.getElem?_cons_zero]
    · rw [List.find?_cons_of_neg _ h, List.filter_cons_of_neg h]
      exact ih

/-- Scanning the positions after `i` for `p` is scanning all positions for `p` and `i < ·`. -/
theorem find?_range'_after (p : Nat → Bool) (i : Nat) :
    ∀ (len a : Nat),
      (List.range' a len).find? (fun j => p j && decide (i < j))
        = ((List.range' a len).drop (i + 1 - a)).find? p := by
  intro len
  induction len with
  | zero =>
    intro a
    simp
  | succ n ih =>
    intro a
    rw [List.range'_succ, List.find?_cons]
    by_cases hai : a ≤ i
    · have h1 : i + 1 - a = (i + 1 - (a + 1)) + 1 := by omega
      have h2 : (p a && decide (i < a)) = false := by
        simp only [Bool.and_eq_false_imp, decide_eq_false_iff_not]
        intro _
        omega
      rw [h1, List.drop_succ_cons]
      simp only [h2]
      exact ih (a + 1)
    · have h1 : i + 1 - a = 0 := by omega
      have h3 : i + 1 - (a + 1) = 0 := by omega
      have h4 := ih (a + 1)
      rw [h3, List.drop_zero] at h4
      have h5 : decide (i < a) = true := by
        simp only [decide_eq_true_eq]
        omega
      rw [h1, List.drop_zero, List.find?_cons]
      simp only [h5, Bool.and_true]
      cases p a
      · exact h4
      · rfl

/-- The first Tab/Strong position after `i` in the tab order is the first one the forward scan
meets before it wraps. -/
theorem tab_order_find_after (order : List Focus_policy) (i : Nat) :
    (Focus.tab_order order).find? (fun j => decide (i < j))
      = ((List.range order.length).drop (i + 1)).find? (Focus.tab_eligible order) := by
  unfold Focus.tab_order
  rw [List.find?_filter]
  have h := find?_range'_after (Focus.tab_eligible order) i order.length 0
  rw [Nat.sub_zero, ← List.range_eq_range'] at h
  rw [← h]
  congr 1
  funext j
  simp

/-- In a strictly increasing list the first element above the one at position `m` is the one
at position `m + 1`. -/
theorem find?_above_sorted (l : List Nat) (hs : l.Pairwise (· < ·)) (m x : Nat)
    (hx : l[m]? = some x) :
    l.find? (fun j => decide (x < j)) = l[m + 1]? := by
  induction l generalizing m with
  | nil => simp at hx
  | cons a t ih =>
    obtain ⟨h1, h2⟩ := List.pairwise_cons.mp hs
    cases m with
    | zero =>
      simp only [List.getElem?_cons_zero, Option.some.injEq] at hx
      subst hx
      rw [List.find?_cons, List.getElem?_cons_succ]
      simp only [Nat.lt_irrefl, decide_False]
      cases t with
      | nil => rfl
      | cons b t2 =>
        have hb : a < b := h1 b (List.mem_cons_self _ _)
        rw [List.find?_cons]
        simp only [hb, decide_True, List.getElem?_cons_zero]
    | succ m =>
      simp only [List.getElem?_cons_succ] at hx
      have hax : a < x := h1 x (List.getElem?_mem hx)
      have hxa : decide (x < a) = false := by
        simp only [decide_eq_false_iff_not]
        omega
      rw [List.find?_cons, List.getElem?_cons_succ]
      simp only [hxa]
      exact ih h2 m hx

theorem tab_order_sorted (order : List Focus_policy) :
    (Focus.tab_order order).Pairwise (· < ·) :=
  List.Pairwise.filter _ (List.pairwise_lt_range _)

/-- With tab focus enabled and not suppressed, and a Tab/Strong widget in the tree,
`tab_press()` leaves the focus on `tab_next` of the holder and does not touch the two flags. -/
theorem tab_press_focus (order : List Focus_policy) (f : Focus) (hen : f.tab_enabled_ = true)
    (hsup : f.tab_suppressed_ = false) (hE : Focus.tab_order order ≠ []) :
    (Focus.tab_press order f).1.focus_widget_ = Focus.tab_next order f.focus_widget_ ∧
      (Focus.tab_press order f).1.tab_enabled_ = true ∧
      (Focus.tab_press order f).1.tab_suppressed_ = false := by
  obtain ⟨e, he⟩ : ∃ e, (Focus.tab_order order)[0]? = some e := by
    cases hO : Focus.tab_order order with
    | nil => exact absurd hO hE
    | cons a t => exact ⟨a, List.getElem?_cons_zero⟩
  have hfirst : (List.range order.length).find? (Focus.tab_eligible order) = some e := by
    rw [find?_eq_filter_first]
    exact he
  have hgate : ¬ (f.tab_enabled_ = false ∨ f.tab_suppressed_ = true) := by
    rw [hen, hsup]
    simp
  unfold Focus.tab_press
  rw [if_neg hgate]
  cases hfw : f.focus_widget_ with
  | none =>
    simp only [Focus.tab_scan, hfirst, Focus.tab_next, he]
    rw [if_neg (by simp)]
    exact ⟨rfl, hen, hsup⟩
  | some i =>
    have hd := tab_order_find_after order i
    simp only [Focus.tab_scan, List.find?_append, Focus.tab_next]
    cases hdrop : ((List.range order.length).drop (i + 1)).find? (Focus.tab_eligible order) with
    | some j =>
      rw [hdrop] at hd
      simp only [hd, Option.or]
      split_ifs with c
      · exact ⟨by rw [hfw]; exact c, hen, hsup⟩
      · exact ⟨rfl, hen, hsup⟩
    | none =>
      rw [hdrop] at hd
      have htake : ((List.range order.length).take (i + 1)).find? (Focus.tab_eligible order)
          = some e := by
        have h1 := hfirst
        rw [← List.take_append_drop (i + 1) (List.range order.length), List.find?_append,
          hdrop] at h1
        simpa using h1
      simp only [hd, htake, he, Option.or]
      split_ifs with c
      · exact ⟨by rw [hfw]; exact c, hen, hsup⟩
      · exact ⟨rfl, hen, hsup⟩

/-- From the widget at position `m` of the tab order, `tab_next` is the widget at position
`m + 1`, the first one after the last. -/
theorem tab_next_cycle (order : List Focus_policy) (m x : Nat)
    (hx : (Focus.tab_order order)[m]? = some x) :
    Focus.tab_next order (some x)
      = (Focus.tab_order order)[(m + 1) % (Focus.tab_order order).length]? := by
  have hm : m < (Focus.tab_order order).length := by
    by_contra hge
    rw [List.getElem?_eq_none (by omega)] at hx
    exact Option.noConfusion hx
  have hfind := find?_above_sorted _ (tab_order_sorted order) m x hx
  simp only [Focus.tab_next, hfind]
  by_cases hlast : m + 1 < (Focus.tab_order order).length
  · rw [Nat.mod_eq_of_lt hlast, List.getElem?_eq_getElem hlast]
  · have hk : m + 1 = (Focus.tab_order order).length := by omega
    rw [List.getElem?_eq_none (by omega), hk, Nat.mod_self]

/-- The widget `tab_next` gives is in the tab order, at position 0 when nothing is focused. -/
theorem tab_next_mem (order : List Focus_policy) (current : Option Nat)
    (hE : Focus.tab_order order ≠ []) :
    ∃ m0, m0 < (Focus.tab_order order).length ∧ (current = none → m0 = 0) ∧
      ∃ x, (Focus.tab_order order)[m0]? = some x ∧ Focus.tab_next order current = some x := by
  have hpos : 0 < (Focus.tab_order order).length := List.length_pos.mpr hE
  have h0 : (Focus.tab_order order)[0]? = some ((Focus.tab_order order)[0]) :=
    List.getElem?_eq_getElem hpos
  cases current with
  | none => exact ⟨0, hpos, fun _ => rfl, _, h0, by simp only [Focus.tab_next, h0]⟩
  | some i =>
    cases hf : (Focus.tab_order order).find? (fun j => decide (i < j)) with
    | none =>
      exact ⟨0, hpos, fun h => Option.noConfusion h, _, h0, by simp only [Focus.tab_next, hf, h0]⟩
    | some j =>
      obtain ⟨m0, hm0, hj⟩ := List.getElem_of_mem (List.mem_of_find?_eq_some hf)
      exact ⟨m0, hm0, fun h => Option.noConfusion h, j,
        by rw [List.getElem?_eq_getElem hm0, hj], by simp only [Focus.tab_next, hf]⟩

/-- Successive calls of `tab_press()` walk the tab order cyclically, from the position that
the first call reaches. -/
theorem tab_press_n_cycle (order : List Focus_policy) (f : Focus) (hen : f.tab_enabled_ = true)
    (hsup : f.tab_suppressed_ = false) (hE : Focus.tab_order order ≠ []) :
    ∃ m0, m0 < (Focus.tab_order order).length ∧ (f.focus_widget_ = none → m0 = 0) ∧
      ∀ j, (Focus.tab_press_n order (j + 1) f).focus_widget_
        = (Focus.tab_order order)[(m0 + j) % (Focus.tab_order order).length]? := by
  obtain ⟨m0, hm0, hnone, x, hx, hnext⟩ := tab_next_mem order f.focus_widget_ hE
  refine ⟨m0, hm0, hnone, ?_⟩
  have key : ∀ j, (Focus.tab_press_n order (j + 1) f).tab_enabled_ = true ∧
      (Focus.tab_press_n order (j + 1) f).tab_suppressed_ = false ∧
      (Focus.tab_press_n order (j + 1) f).focus_widget_
        = (Focus.tab_order order)[(m0 + j) % (Focus.tab_order order).length]? := by
    intro j
    induction j with
    | zero =>
      obtain ⟨h1, h2, h3⟩ := tab_press_focus order f hen hsup hE
      refine ⟨h2, h3, ?_⟩
      show (Focus.tab_press order f).1.focus_widget_ = _
      rw [h1, hnext, Nat.add_zero, Nat.mod_eq_of_lt hm0, hx]
    | succ j ih =>
      obtain ⟨i1, i2, i3⟩ := ih
      obtain ⟨h1, h2, h3⟩ := tab_press_focus order (Focus.tab_press_n order (j + 1) f) i1 i2 hE
      refine ⟨h2, h3, ?_⟩
      show (Focus.tab_press order (Focus.tab_press_n order (j + 1) f)).1.focus_widget_ = _
      have hlt : (m0 + j) % (Focus.tab_order order).length < (Focus.tab_order order).length :=
        Nat.mod_lt _ (by omega)
      rw [h1, i3, List.getElem?_eq_getElem hlt,
        tab_next_cycle order _ _ (List.getElem?_eq_getElem hlt), Nat.mod_add_mod]
      rfl
  exact fun j => (key j).2.2

/-- C16: for every widget tree whose pre-order sequence holds a Tab or Strong widget, with tab
focus enabled and not suppressed, `tab_press()` leaves the focus on the next Tab/Strong widget
after the holder in pre-order (the first one when nothing is focused or none follows); the
Tab/Strong widgets are distinct positions, and the successive calls walk them in pre-order,
cyclically, so each is visited once before the walk repeats, starting at the first one when
nothing was focused.  On the tree with policies Tab, None, Strong, Click, Tab and no focus,
four calls focus the widgets 0, 2, 4, 0. -/
theorem tab_press_walks_tab_order :
    (∀ (root : Widget) (f : Focus), f.tab_enabled_ = true → f.tab_suppressed_ = false →
      Focus.tab_order root.preorder ≠ [] →
      (Focus.tab_press root.preorder f).1.focus_widget_
          = Focus.tab_next root.preorder f.focus_widget_ ∧
        (Focus.tab_order root.preorder).Nodup ∧
        ∃ m0, m0 < (Focus.tab_order root.preorder).length ∧
          (f.focus_widget_ = none → m0 = 0) ∧
          ∀ j, (Focus.tab_press_n root.preorder (j + 1) f).focus_widget_
            = (Focus.tab_order root.preorder)[
                (m0 + j) % (Focus.tab_order root.preorder).length]?) ∧
    (sample_tree.preorder
        = [Focus_policy.Tab, Focus_policy.None, Focus_policy.Strong, Focus_policy.Click,
            Focus_policy.Tab] ∧
      (Focus.tab_press_n sample_tree.preorder 1 sample_focus).focus_widget_ = some 0 ∧
      (Focus.tab_press_n sample_tree.preorder 2 sample_focus).focus_widget_ = some 2 ∧
      (Focus.tab_press_n sample_tree.preorder 3 sample_focus).focus_widget_ = some 4 ∧
      (Focus.tab_press_n sample_tree.preorder 4 sample_focus).focus_widget_ = some 0) := by
  refine ⟨?_, by decide⟩
  intro root f hen hsup hE
  refine ⟨(tab_press_focus _ f hen hsup hE).1, ?_, tab_press_n_cycle _ f hen hsup hE⟩
  exact (tab_order_sorted root.preorder).imp (fun h => Nat.ne_of_lt h)

/-- C16, at the sample tree with the focus on widget 2 (Strong): the next call focuses
widget 4. -/
theorem tab_press_walks_tab_order_witness :
    (Focus.tab_press sample_tree.preorder { sample_focus with focus_widget_ := some 2 }).1.focus_widget_
      = Focus.tab_next sample_tree.preorder (some 2) :=
  (tab_press_walks_tab_order.1 sample_tree { sample_focus with focus_widget_ := some 2 }
    (by decide) (by decide) (by decide)).1

end cppurses
